import Mathlib

/-!
Verification of the ALKIS SFL/EMZ area-reconciliation core
(`src/sfl/calc_sfl_nutzung.py`, `src/sfl/calc_sfl_bodenschaetzung.py`,
`src/sfl/merge_mini_geometries.py`, `src/sfl/init_dataframes.py`).

Shallow embedding conventions:
  * A pandas DataFrame of fragments is a `List Frag`; list positions play the
    role of the pandas integer index (the code addresses rows with `df.at[idx, col]`).
  * Python floats are modelled as exact rationals (`ℚ`); `int(x)` / `.astype(int)`
    is `pyInt` (truncation toward zero), Python `round` / pandas `.round()` is
    `pyRound` (round half to even).
  * Geometry (shapely) is an external provider: the merge algorithms are
    parametric in a `GeomApi G` record supplying `touches`, `intersects`,
    `distance`, `buffer`, `area`, `union`.  For concrete counterexamples this is
    instantiated with closed rational intervals on a line.
  * `math.ceil` on a rational is `Int.ceil`.
-/

set_option maxRecDepth 4000

namespace AlkisSfl

/-! ### Python numeric primitives -/

/-- Python `int(x)` / numpy `.astype(int)`: truncation toward zero. -/
def pyInt (q : ℚ) : ℤ := if 0 ≤ q then ⌊q⌋ else -⌊-q⌋

/-- Python 3 `round(x)` and pandas/numpy `.round()`: round half to even
(banker's rounding). -/
def pyRound (q : ℚ) : ℤ :=
  let n := ⌊q⌋
  let frac := q - (n : ℚ)
  if frac < 1/2 then n
  else if 1/2 < frac then n + 1
  else if n % 2 = 0 then n else n + 1

/-! ### Data model

One fragment row of the dissolved overlay layer, as loaded by
`DataFrameLoader` (`src/sfl/init_dataframes.py`).  Parent keys (the
Flurstückskennzeichen strings `fsk`) are modelled as opaque naturals.
`schaetz_afl` is the per-parcel reconciliation target column computed in
`vectorized_calculate_sfl_boden` step 3 (only used by the Bodenschätzung
delta correction); `is_overlap` is the `weitere_nutzung_id == 1000` flag of
the Nutzung pipeline. -/

structure Frag where
  objectid : ℕ
  fsk : ℕ
  geom_area : ℚ
  geom_length : ℚ
  amtliche_flaeche : ℤ
  verbesserung : ℚ
  sfl : ℤ
  ackerzahl : ℚ
  emz : ℤ
  is_overlap : Bool
  schaetz_afl : ℤ
deriving Repr, DecidableEq

/-- A default fragment, convenient for building concrete test rows. -/
def Frag.default : Frag :=
  { objectid := 0, fsk := 0, geom_area := 0, geom_length := 0,
    amtliche_flaeche := 0, verbesserung := 0, sfl := 0, ackerzahl := 0,
    emz := 0, is_overlap := false, schaetz_afl := 0 }

/-! ### AreaScaler (`calc_sfl_nutzung.py` 139–140, `calc_sfl_bodenschaetzung.py` 294,
`init_dataframes.py` 56–67) -/

/-- Improvement factor of one parcel, from `load_flurstuecke_to_dataframe`:
rows with `geom_area > 0` get `verbesserung = afl / geom_area`; other parcel
rows are skipped entirely (never appended to the DataFrame). -/
def verbesserungOf (afl : ℤ) (parentArea : ℚ) : Option ℚ :=
  if 0 < parentArea then some ((afl : ℚ) / parentArea) else none

/-- The vectorised base-SFL computation
`df["sfl"] = (df["geom_area"] * df["verbesserung"] + 0.5).astype(int)`. -/
def areaScale (df : List Frag) : List Frag :=
  df.map (fun f => { f with sfl := pyInt (f.geom_area * f.verbesserung + 1/2) })

/-- The EMZ formula used at `calc_sfl_bodenschaetzung.py` 295 and
`merge_mini_geometries.py` 202:
`emz = round(sfl / 100 * ackerzahl)` with Python rounding. -/
def calcEmz (sfl : ℤ) (ackerzahl : ℚ) : ℤ := pyRound ((sfl : ℚ) / 100 * ackerzahl)

/-- Round half away from zero (the rounding mode the spec prescribes for EMZ);
for the non-negative values at hand this is `⌊q + 1/2⌋`. -/
def roundHalfAway (q : ℚ) : ℤ := if 0 ≤ q then ⌊q + 1/2⌋ else -⌊-q + 1/2⌋

/-! ### SliverClassifier of `merge_mini_geometries` (lines 41–85)

Per-fragment restatement of the vectorised masks:
  * `mask_mini   = sfl <= max_shred_qm` (line 41);
  * `mask_delete = geom_area < delete_area ∧ sfl <= merge_area ∧ afl > merge_area`
    (lines 59–63), applied first and only when `delete_area` is configured;
  * `mask_keep   = afl <= max_shred_qm` (line 74);
  * `mask_real_feature = form_index < flaechenformindex ∧ sfl >= merge_area`
    (line 81), where `form_index = perimeter / sqrt(geom_area)` (lines 77–78)
    and `perimeter = geom_length`;
  * kept: `mask_keep ∨ (¬mask_keep ∧ mask_real_feature)` (line 83);
    merged: `¬mask_keep ∧ ¬mask_real_feature` (line 85). -/

/-- The comparison `perimeter / sqrt(geom_area) < T`, encoded squarefree so it
stays decidable: for `0 ≤ p`, `0 < a`, `0 ≤ T` it is equivalent to
`p / Real.sqrt a < T` (theorem `formLt_iff_sqrt` below). -/
def formLt (p a t : ℚ) : Prop := p ^ 2 < t ^ 2 * a

instance (p a t : ℚ) : Decidable (formLt p a t) := by
  unfold formLt; infer_instance

/-- The delete-outright mask (`merge_mini_geometries.py` 59–63). -/
def deleteCond (mergeArea : ℤ) (deleteArea : Option ℚ) (f : Frag) : Prop :=
  match deleteArea with
  | some d => f.geom_area < d ∧ f.sfl ≤ mergeArea ∧ mergeArea < f.amtliche_flaeche
  | none => False

instance (mergeArea : ℤ) (deleteArea : Option ℚ) (f : Frag) :
    Decidable (deleteCond mergeArea deleteArea f) := by
  unfold deleteCond; cases deleteArea <;> infer_instance

/-- The keep mask (`merge_mini_geometries.py` 74–83):
`mask_keep ∨ (¬mask_keep ∧ mask_real_feature)`. -/
def keepCond (maxShred mergeArea : ℤ) (formT : ℚ) (f : Frag) : Prop :=
  f.amtliche_flaeche ≤ maxShred ∨
    (¬(f.amtliche_flaeche ≤ maxShred) ∧
      (formLt f.geom_length f.geom_area formT ∧ mergeArea ≤ f.sfl))

instance (maxShred mergeArea : ℤ) (formT : ℚ) (f : Frag) :
    Decidable (keepCond maxShred mergeArea formT f) := by
  unfold keepCond; infer_instance

/-- Terminal classification of one fragment by `merge_mini_geometries`. -/
inductive MiniClass where
  | mainFragment
  | deleteOutright
  | keepStandalone
  | mergeCandidate
deriving Repr, DecidableEq

/-- Per-fragment classification implemented by the masks of
`merge_mini_geometries` (lines 41–85): non-mini rows stay main; among minis
the delete filter (lines 56–65) runs first, then the keep/merge split
(lines 71–85). -/
def classifyFragment (maxShred mergeArea : ℤ) (formT : ℚ) (deleteArea : Option ℚ)
    (f : Frag) : MiniClass :=
  if ¬(f.sfl ≤ maxShred) then .mainFragment
  else if deleteCond mergeArea deleteArea f then .deleteOutright
  else if keepCond maxShred mergeArea formT f then .keepStandalone
  else .mergeCandidate

/-! ### Python call-convention model (for the defective call sites)

`merge_mini_geometries(df, workspace, max_shred_qm, merge_area,
flaechenformindex, delete_area, calc_type="nutzung")` has six required
positional parameters plus one defaulted one (`merge_mini_geometries.py` 17).
`DataFrameLoader.load_nutzung_to_dataframe(self)` takes no argument beyond
`self` (`init_dataframes.py` 77).  A Python call binding `n` positional
arguments succeeds iff `required ≤ n ≤ total`; otherwise it raises
`TypeError` before the callee body runs. -/

/-- A Python exception, tagged with the name of the function whose call (or
whose body) raised it. -/
inductive PyExc where
  | typeErr (fn : String)
  | nameErr (v : String)
  | attrErr (n : String)
deriving Repr, DecidableEq

/-- Parameter list of a Python function: (name, has-default). -/
def PyParams := List (String × Bool)

/-- Number of parameters without a default value. -/
def requiredCount (ps : PyParams) : ℕ := (ps.filter (fun p => !p.2)).length

/-- Whether a call with `n` positional arguments (and no keywords) binds. -/
def acceptsPositional (ps : PyParams) (n : ℕ) : Prop :=
  requiredCount ps ≤ n ∧ n ≤ ps.length

instance (ps : PyParams) (n : ℕ) : Decidable (acceptsPositional ps n) := by
  unfold acceptsPositional; exact instDecidableAnd

/-- Signature of `merge_mini_geometries` (`merge_mini_geometries.py` 17). -/
def mmgParams : PyParams :=
  [("df", false), ("workspace", false), ("max_shred_qm", false),
   ("merge_area", false), ("flaechenformindex", false), ("delete_area", false),
   ("calc_type", true)]

/-- Signature of `DataFrameLoader.load_nutzung_to_dataframe` beyond `self`
(`init_dataframes.py` 77): no parameters. -/
def loadNutzungParams : PyParams := []

/-! ### `vectorized_calculate_sfl_boden` and `calculate_sfl_bodenschaetzung`
(`calc_sfl_bodenschaetzung.py` 223–338 and 499–516)

The whole body of `vectorized_calculate_sfl_boden` sits in one
`try/except Exception` whose handler returns `False`.  We model the
outcome of the three DataFrame loads as environment booleans and track which
exception (if any) the handler caught.  Steps 1–4 are pure pandas arithmetic
on in-memory frames and are modelled as total. -/

structure BodenEnv where
  loadFlurstueckeOk : Bool
  loadNutzungOk : Bool
  loadBodenOk : Bool

/-- Control flow of `vectorized_calculate_sfl_boden`: returns the function's
boolean result together with the exception the `except` handler caught, if
any.  Line numbers refer to `calc_sfl_bodenschaetzung.py`:
line 232 `load_flurstuecke_to_dataframe()`;
line 234 `load_nutzung_to_dataframe(self.nutzung_dissolve)` — one positional
argument passed to a method that accepts none;
line 236 `load_bodenschaetzung_to_dataframe()`;
lines 299–301 `merge_mini_geometries(df, max_shred_qm, merge_area,
flaechenformindex, "bodenschaetzung")` — five positional arguments for six
required parameters. -/
def vectorizedCalculateSflBoden (env : BodenEnv) : Bool × Option PyExc :=
  if env.loadFlurstueckeOk = false then (false, none)
  else if ¬ acceptsPositional loadNutzungParams 1 then
    (false, some (.typeErr "load_nutzung_to_dataframe"))
  else if env.loadNutzungOk = false then (false, none)
  else if env.loadBodenOk = false then (false, none)
  else if ¬ acceptsPositional mmgParams 5 then
    (false, some (.typeErr "merge_mini_geometries"))
  else (true, none)

/-- `calculate_sfl_bodenschaetzung` (lines 499–516): `prepare_boden`, then
`vectorized_calculate_sfl_boden`, then `finalize_results`, each short-circuiting
to `False`. -/
def calculateSflBodenschaetzung (prepOk : Bool) (env : BodenEnv)
    (finalizeOk : Bool) : Bool :=
  if prepOk = false then false
  else if (vectorizedCalculateSflBoden env).1 = false then false
  else if finalizeOk = false then false
  else true

/-! ### `merge_mini_geometries` control flow (lines 39–130)

The function body is wrapped in `try/except`, with the handler returning the
single value `False` instead of the documented three-frame tuple.  The local
`df_delete` is assigned only inside the `if len(df_mini) > 0` block
(lines 120 and 124); when that block is skipped the `return` on line 127
raises `NameError`, which the handler converts to `False`.  The
geometry-dependent merge branch (lines 100–122: feature-class selection,
`init_dfs.add_geometries_from_fc`, `process_merging`) is delegated to an
abstract `mergeOracle` returning `(df_main_after, df_mini_merged,
df_mini_not_merged)`; no claim depends on its result. -/

inductive MMGResult where
  | ok (dfMain dfDelete dfNotMerged : List Frag)
  | pyFalse (e : PyExc)
deriving Repr, DecidableEq

/-- Shallow embedding of the body of `merge_mini_geometries`. -/
def mergeMiniGeometries
    (mergeOracle : List Frag → List Frag → List Frag × List Frag × List Frag)
    (maxShred mergeArea : ℤ) (formT : ℚ) (deleteArea : Option ℚ)
    (df : List Frag) : MMGResult :=
  let dfMini0 := df.filter (fun f => decide (f.sfl ≤ maxShred))
  let dfMain := df.filter (fun f => decide (¬(f.sfl ≤ maxShred)))
  let dfMiniNotMerged : List Frag := []
  -- lines 56–65: delete filter, only when delete_area is configured
  let dfMiniToDelete :=
    if deleteArea.isSome ∧ dfMini0 ≠ [] then
      dfMini0.filter (fun f => decide (deleteCond mergeArea deleteArea f))
    else []
  let dfMini :=
    if deleteArea.isSome ∧ dfMini0 ≠ [] then
      dfMini0.filter (fun f => decide (¬ deleteCond mergeArea deleteArea f))
    else dfMini0
  if dfMini ≠ [] then
    let dfMiniKeep := dfMini.filter (fun f => decide (keepCond maxShred mergeArea formT f))
    let dfMiniMerge := dfMini.filter (fun f => decide (¬ keepCond maxShred mergeArea formT f))
    let dfMain2 := dfMain ++ dfMiniKeep
    if dfMiniMerge ≠ [] then
      let r := mergeOracle dfMain2 dfMiniMerge
      .ok r.1 (dfMiniToDelete ++ r.2.1) r.2.2
    else
      .ok dfMain2 dfMiniToDelete dfMiniNotMerged
  else
    -- line 127: `return df_main, df_delete, df_mini_not_merged` with
    -- `df_delete` never assigned
    .pyFalse (.nameErr "df_delete")

/-! ### Geometry provider and the sliver mergers

Shapely is an external collaborator; the merge algorithms only consume the
capability set below.  All calls are modelled as total (the per-call
`try/except: pass` guards of the source only matter when the provider
raises, which is outside this embedding). -/

structure GeomApi (G : Type) where
  touches : G → G → Bool
  intersects : G → G → Bool
  distance : G → G → ℚ
  buffer : G → ℚ → G
  area : G → ℚ
  union : G → G → G

/-- One candidate main row: its global DataFrame position and the row. -/
structure GFrag (G : Type) where
  objectid : ℕ
  fsk : ℕ
  geom : G
  geom_area : ℚ
  verbesserung : ℚ
  sfl : ℤ
  ackerzahl : ℚ
  emz : ℤ
deriving Repr, DecidableEq

/-- Strategy 1 (`calc_sfl_nutzung.py` 237–245, `merge_mini_geometries.py`
172–181): the first main fragment of the parent group whose geometry touches
or intersects the mini fragment. -/
def strat1 {G : Type} (api : GeomApi G) (mini : G) :
    List (ℕ × GFrag G) → Option ℕ
  | [] => none
  | c :: rest =>
    if api.touches c.2.geom mini || api.intersects c.2.geom mini then some c.1
    else strat1 api mini rest

/-- Strategy 2 (`calc_sfl_nutzung.py` 247–258): minimum boundary distance,
accepted only below the tolerance; `min_distance` starts at infinity and is
only replaced by a strictly smaller distance, so the first of several equal
minima wins. -/
def strat2Aux {G : Type} (api : GeomApi G) (tol : ℚ) (mini : G) :
    List (ℕ × GFrag G) → Option (ℕ × ℚ) → Option (ℕ × ℚ)
  | [], acc => acc
  | c :: rest, acc =>
    let d := api.distance c.2.geom mini
    let acc2 :=
      match acc with
      | none => if d < tol then some (c.1, d) else none
      | some best => if d < tol ∧ d < best.2 then some (c.1, d) else some best
    strat2Aux api tol mini rest acc2

def strat2 {G : Type} (api : GeomApi G) (tol : ℚ) (mini : G)
    (cands : List (ℕ × GFrag G)) : Option ℕ :=
  (strat2Aux api tol mini cands none).map (·.1)

/-- Strategy 3 (`calc_sfl_nutzung.py` 260–275): buffer the mini geometry by
the constant `0.5` and take, among main fragments intersecting the buffer,
the one with the largest geometry area; `max_area` starts at `0` and is only
replaced by a strictly larger area, so the first of several equal maxima
wins and non-positive areas are never selected. -/
def strat3Aux {G : Type} (api : GeomApi G) (buf : G) :
    List (ℕ × GFrag G) → Option (ℕ × ℚ) → Option (ℕ × ℚ)
  | [], acc => acc
  | c :: rest, acc =>
    let acc2 :=
      if api.intersects buf c.2.geom then
        match acc with
        | none =>
          if 0 < api.area c.2.geom then some (c.1, api.area c.2.geom) else none
        | some best =>
          if best.2 < api.area c.2.geom then some (c.1, api.area c.2.geom)
          else some best
      else acc
    strat3Aux api buf rest acc2

def strat3 {G : Type} (api : GeomApi G) (mini : G)
    (cands : List (ℕ × GFrag G)) : Option ℕ :=
  (strat3Aux api (api.buffer mini (1/2)) cands none).map (·.1)

/-- Target selection of `_merge_mini_into_main_nutzung`
(`calc_sfl_nutzung.py` 235–275): each strategy is consulted only while
`best_match_idx is None`.  The distance tolerance is the local constant
`tolerance = 0.1` (line 210); the strategy-3 buffer radius is the literal
`0.5` (line 263). -/
def selectTargetNutzung {G : Type} (api : GeomApi G) (mini : G)
    (cands : List (ℕ × GFrag G)) : Option ℕ :=
  match strat1 api mini cands with
  | some i => some i
  | none =>
    match strat2 api (1/10) mini cands with
    | some i => some i
    | none => strat3 api mini cands

/-- Modelled from the spec (section 4.3, step 3, and claim C7): identical to
`selectTargetNutzung` except that strategy 3 buffers the mini fragment by
the tolerance (0.1) instead of the literal 0.5.  Used only to compare the
spec's description against the code. -/
def selectTargetSpecWords {G : Type} (api : GeomApi G) (mini : G)
    (cands : List (ℕ × GFrag G)) : Option ℕ :=
  match strat1 api mini cands with
  | some i => some i
  | none =>
    match strat2 api (1/10) mini cands with
    | some i => some i
    | none => (strat3Aux api (api.buffer mini (1/10)) cands none).map (·.1)

/-- Candidate rows of a mini fragment's parent group:
`df_main[df_main["fsk"] == mini_fsk]` with their global positions
(`calc_sfl_nutzung.py` 229–234, `merge_mini_geometries.py` 164–169). -/
def fskCands {G : Type} (dfMain : List (GFrag G)) (k : ℕ) : List (ℕ × GFrag G) :=
  dfMain.enum.filter (fun p => p.2.fsk = k)

/-- Recalculation applied to the matched main row on a successful merge
(`calc_sfl_nutzung.py` 278–291): union geometry, union area, and
`sfl = int(union_area * verbesserung + 0.5)`. -/
def mergeRecalc {G : Type} (api : GeomApi G) (f : GFrag G) (miniGeom : G) :
    GFrag G :=
  let ug := api.union f.geom miniGeom
  let ua := api.area ug
  { f with geom := ug, geom_area := ua,
           sfl := pyInt (ua * f.verbesserung + 1/2) }

/-- Recalculation of `process_merging` for the Bodenschätzung layer
(`merge_mini_geometries.py` 186–203): the nutzung recalculation plus
`emz = int(round(new_sfl / 100 * ackerzahl))`. -/
def mergeRecalcBoden {G : Type} (api : GeomApi G) (f : GFrag G) (miniGeom : G) :
    GFrag G :=
  let f2 := mergeRecalc api f miniGeom
  { f2 with emz := calcEmz f2.sfl f.ackerzahl }

/-- One iteration of the mini loop of `_merge_mini_into_main_nutzung`
(`calc_sfl_nutzung.py` 215–294) for a single mini fragment: restrict to main
rows of the mini's parent key, select a target by the three fallback
strategies, and recalculate the matched row in place. -/
def mergeOneMiniNutzung {G : Type} (api : GeomApi G) (dfMain : List (GFrag G))
    (mini : GFrag G) : List (GFrag G) :=
  match selectTargetNutzung api mini.geom (fskCands dfMain mini.fsk) with
  | none => dfMain
  | some i =>
    match dfMain.get? i with
    | none => dfMain
    | some f => dfMain.set i (mergeRecalc api f mini.geom)

/-- One iteration of the mini loop of `process_merging`
(`merge_mini_geometries.py` 155–208): only the touches/intersects strategy
exists there; for `calc_type == "bodenschaetzung"` the EMZ is recomputed
as well. -/
def processMergingOne {G : Type} (api : GeomApi G) (calcBoden : Bool)
    (dfMain : List (GFrag G)) (mini : GFrag G) : List (GFrag G) :=
  match strat1 api mini.geom (fskCands dfMain mini.fsk) with
  | none => dfMain
  | some i =>
    match dfMain.get? i with
    | none => dfMain
    | some f =>
      dfMain.set i
        (if calcBoden then mergeRecalcBoden api f mini.geom
         else mergeRecalc api f mini.geom)

/-! ### Concrete geometry instance for counterexamples: closed rational
intervals on a line.  `area` is the length, `touches` means sharing exactly
an endpoint, `distance` is the gap. -/

def ivApi : GeomApi (ℚ × ℚ) where
  touches := fun a b => decide (a.2 = b.1 ∨ b.2 = a.1)
  intersects := fun a b => decide (max a.1 b.1 ≤ min a.2 b.2)
  distance := fun a b => max 0 (max (b.1 - a.2) (a.1 - b.2))
  buffer := fun a r => (a.1 - r, a.2 + r)
  area := fun a => a.2 - a.1
  union := fun a b => (min a.1 b.1, max a.2 b.2)

/-! ### DeltaReconciler

`_apply_delta_correction_nutzung` (`calc_sfl_nutzung.py` 317–408) iterates
`df.groupby("fsk", sort=False)` — parent keys in order of first occurrence,
each group's rows in DataFrame order — and mutates `df.at[idx, "sfl"]` for
row positions `idx` of the group being processed. -/

/-- Keys in order of first occurrence (pandas `groupby(..., sort=False)`). -/
def keysAux : List ℕ → List ℕ → List ℕ
  | [], _ => []
  | k :: rest, seen =>
    if k ∈ seen then keysAux rest seen else k :: keysAux rest (k :: seen)

def groupKeys (df : List Frag) : List ℕ := keysAux (df.map (·.fsk)) []

/-- The rows of parent key `k` with their global positions (the pandas group
frame `fsk_data` plus its integer index). -/
def idxRows (df : List Frag) (k : ℕ) : List (ℕ × Frag) :=
  df.enum.filter (fun p => p.2.fsk = k)

/-- Descending-by-`sfl` order on indexed rows (the source's
`argsort()[::-1]`; only used for taking a maximum first, so the tie order
chosen by numpy's unstable sort is irrelevant to every theorem below). -/
def sflGe (a b : ℕ × Frag) : Prop := b.2.sfl ≤ a.2.sfl

instance : DecidableRel sflGe := fun a b =>
  inferInstanceAs (Decidable (b.2.sfl ≤ a.2.sfl))

instance : IsTotal (ℕ × Frag) sflGe := ⟨fun a b => le_total b.2.sfl a.2.sfl⟩

instance : IsTrans (ℕ × Frag) sflGe := ⟨fun _ _ _ h1 h2 => le_trans h2 h1⟩

def sortRowsDesc (rows : List (ℕ × Frag)) : List (ℕ × Frag) :=
  List.insertionSort sflGe rows

/-- The eligible rows of a group (`calc_sfl_nutzung.py` 357–367): all group
rows sorted by descending `sfl`, filtered to those in
`fsk_data_main.index` (non-overlap) with `sfl >= max_shred_qm`. -/
def eligList (t : ℤ) (rows : List (ℕ × Frag)) : List (ℕ × Frag) :=
  (sortRowsDesc rows).filter (fun p => !p.2.is_overlap && decide (t ≤ p.2.sfl))

/-- The signed `sfl` adjustments computed for one parent group
(`calc_sfl_nutzung.py` 339–396).  The result pairs each touched global row
position with the signed amount added to its `sfl`:
all eligible rows but the first (largest) get
`share = int(abs_delta * (sfl / total))`, the first gets
`remainder = abs_delta - sum(other shares)`, and the sign of `delta` is
applied.  Every early `continue` of the source yields `[]`. -/
def correctAssignments (t : ℤ) (rows : List (ℕ × Frag)) : List (ℕ × ℤ) :=
  match rows with
  | [] => []
  | r0 :: _ =>
    let afl := r0.2.amtliche_flaeche
    let nonOverlap := rows.filter (fun p => !p.2.is_overlap)
    let sflSum := (nonOverlap.map (·.2.sfl)).sum
    if sflSum = afl then []
    else
      let delta := afl - sflSum
      let absd := |delta|
      if t ≤ absd then []
      else
        match eligList t rows with
        | [] => []
        | e0 :: eRest =>
          let total : ℚ := (((eligList t rows).map (·.2.sfl)).sum : ℤ)
          if total ≤ 0 then []
          else
            let shares := eRest.map
              (fun p => (p.1, pyInt ((absd : ℚ) * ((p.2.sfl : ℚ) / total))))
            let sumOther := (shares.map (·.2)).sum
            let remainder := absd - sumOther
            let sign : ℤ := if 0 ≤ delta then 1 else -1
            (shares ++ [(e0.1, remainder)]).map (fun p => (p.1, sign * p.2))

/-- One write of the application loop (`calc_sfl_nutzung.py` 397–402): a
share of `0` is skipped (`continue`), otherwise `df.at[idx, "sfl"]` is
replaced by its old value plus the signed share. -/
def applyOne (d : List Frag) (p : ℕ × ℤ) : List Frag :=
  if p.2 = 0 then d
  else
    match d.get? p.1 with
    | none => d
    | some f => d.set p.1 { f with sfl := f.sfl + p.2 }

/-- Application loop (`calc_sfl_nutzung.py` 396–402). -/
def applyAssign (df : List Frag) (asn : List (ℕ × ℤ)) : List Frag :=
  asn.foldl applyOne df

/-- Processing of one parent group of `_apply_delta_correction_nutzung`. -/
def stepGroup (t : ℤ) (k : ℕ) (df : List Frag) : List Frag :=
  applyAssign df (correctAssignments t (idxRows df k))

/-- `_apply_delta_correction_nutzung` (`calc_sfl_nutzung.py` 317–408). -/
def applyDeltaCorrectionNutzung (t : ℤ) (df : List Frag) : List Frag :=
  (groupKeys df).foldl (fun d k => stepGroup t k d) df

/-- Warnings (`arcpy.AddWarning` / `arcpy.AddError`) emitted by
`_apply_delta_correction_nutzung`: the function body (lines 317–408)
contains no such call and builds no report structure — its only output
side-effects are `arcpy.AddMessage` progress strings — so the list is empty
for every input.  In particular groups skipped because
`abs_delta >= max_shred_qm` (lines 352–354) leave no record. -/
def deltaCorrectionNutzungWarnings (_t : ℤ) (_df : List Frag) : List String := []

/-- One iteration of the sorted-row loop of `_apply_delta_correction_boden`
(`calc_sfl_bodenschaetzung.py` 380–398), carrying `(df, rest_anteil)`:
rows with `sfl < max_shred_qm` reduce `rest_anteil` by their `sfl`; while
`rest_anteil > 0`, larger rows receive `ceil(abs_delta * ratio)` with
`ratio = 1.0 if sfl > schaetz_afl else sfl / schaetz_afl`, negated when
`delta < 0`, and their EMZ is recomputed. -/
def bodenRowStep (t schaetzAfl delta absd : ℤ) (st : List Frag × ℤ)
    (p : ℕ × Frag) : List Frag × ℤ :=
  match st.1.get? p.1 with
  | none => st
  | some f =>
    if f.sfl < t then (st.1, st.2 - f.sfl)
    else if 0 < st.2 then
      let anteilTeil : ℚ :=
        if schaetzAfl < f.sfl then 1 else (f.sfl : ℚ) / (schaetzAfl : ℚ)
      let anteil := ⌈(absd : ℚ) * anteilTeil⌉
      let applied := if delta < 0 then -anteil else anteil
      let newSfl := f.sfl + applied
      (st.1.set p.1 { f with sfl := newSfl, emz := calcEmz newSfl f.ackerzahl },
       st.2 - anteil)
    else st

/-- Processing of one parent group of `_apply_delta_correction_boden`
(`calc_sfl_bodenschaetzung.py` 351–400): target is the group's
`schaetz_afl` (estimated assessment area), all group rows count, and only
deltas with `abs_delta < max_shred_qm` are distributed. -/
def bodenStepGroup (t : ℤ) (k : ℕ) (df : List Frag) : List Frag :=
  match idxRows df k with
  | [] => df
  | r0 :: rest =>
    let schaetzAfl := r0.2.schaetz_afl
    let rows := r0 :: rest
    let sflSum := (rows.map (·.2.sfl)).sum
    if sflSum = schaetzAfl then df
    else
      let delta := schaetzAfl - sflSum
      let absd := |delta|
      if absd < t then
        ((sortRowsDesc rows).foldl (bodenRowStep t schaetzAfl delta absd)
          (df, absd)).1
      else df

/-- `_apply_delta_correction_boden` (`calc_sfl_bodenschaetzung.py` 340–406). -/
def applyDeltaCorrectionBoden (t : ℤ) (df : List Frag) : List Frag :=
  (groupKeys df).foldl (fun d k => bodenStepGroup t k d) df

/-! ### Group views and sums (the quantities the spec's invariants speak about) -/

/-- The fragments of one parent group, in DataFrame order. -/
def groupView (k : ℕ) (df : List Frag) : List Frag :=
  df.filter (fun f => decide (f.fsk = k))

/-- Per-row contribution to a parent group's reconcilable area sum. -/
def wNonOv (k : ℕ) (f : Frag) : ℤ :=
  if f.fsk = k ∧ f.is_overlap = false then f.sfl else 0

/-- `sum(f.sfl for f in group k if not f.is_overlap)` — the quantity the
delta correction reconciles against `amtliche_flaeche`. -/
def reconcilableSum (k : ℕ) (df : List Frag) : ℤ :=
  (((groupView k df).filter (fun f => !f.is_overlap)).map (·.sfl)).sum

/-! ### Concrete inputs for counterexamples and witnesses -/

/-- A concrete fragment row. -/
def mkRow (oid k : ℕ) (sfl afl : ℤ) (ov : Bool) (saf : ℤ) : Frag :=
  { Frag.default with
    objectid := oid
    fsk := k
    sfl := sfl
    amtliche_flaeche := afl
    is_overlap := ov
    schaetz_afl := saf }

/-- Scenario A of the spec: parcel `official_area = 1147`, fragment `sfl`
values `[500, 400, 250]` (sum 1150). -/
def dfA : List Frag :=
  [mkRow 1 1 500 1147 false 0, mkRow 2 1 400 1147 false 0,
   mkRow 3 1 250 1147 false 0]

/-- The same group fed to the Bodenschätzung delta correction, whose
reconciliation target column `schaetz_afl` is 1147. -/
def dfB : List Frag :=
  [mkRow 1 1 500 0 false 1147, mkRow 2 1 400 0 false 1147,
   mkRow 3 1 250 0 false 1147]

/-- A group with residual delta `1147 - 1140 = 7 ≥ 5`. -/
def dfC6 : List Frag := [mkRow 1 2 600 1147 false 0, mkRow 2 2 540 1147 false 0]

/-- Two interleaved parent groups (keys 1 and 3). -/
def dfC9 : List Frag :=
  [mkRow 1 1 500 1147 false 0, mkRow 2 3 80 82 false 0,
   mkRow 3 1 400 1147 false 0, mkRow 4 3 1 82 false 0,
   mkRow 5 1 250 1147 false 0]

/-- A mini fragment hit by both the delete mask and the claimed keep
condition: `sfl = 1 ≤ merge_area`, `afl = 3 ≤ max_shred`, tiny and compact
geometry below the `delete_area` floor. -/
def fragC8 : Frag :=
  { Frag.default with
    sfl := 1
    amtliche_flaeche := 3
    geom_area := 1/10
    geom_length := 1 }

/-- A mini interval for the merge counterexample: `[0, 0.1]`. -/
def miniIv : ℚ × ℚ := (0, 1/10)

/-- A main fragment at gap 0.3 from `miniIv`: too far for the 0.1 distance
tolerance, but inside the hard-coded 0.5 buffer. -/
def mainIvRow : GFrag (ℚ × ℚ) :=
  { objectid := 7, fsk := 1, geom := (2/5, 7/5), geom_area := 1,
    verbesserung := 1, sfl := 100, ackerzahl := 0, emz := 0 }

/-- A main fragment touching the interval `[0, 1]` at its right endpoint. -/
def touchIvRow : GFrag (ℚ × ℚ) :=
  { objectid := 8, fsk := 1, geom := (1, 3), geom_area := 2,
    verbesserung := 1, sfl := 200, ackerzahl := 0, emz := 0 }

/-- A main fragment of a different parent group, for the scope witness. -/
def otherFskRow : GFrag (ℚ × ℚ) :=
  { objectid := 9, fsk := 4, geom := (0, 1), geom_area := 1,
    verbesserung := 1, sfl := 50, ackerzahl := 0, emz := 0 }

/-- A mini `GFrag` wrapper around `miniIv` with parent key 1. -/
def miniGRow : GFrag (ℚ × ℚ) :=
  { objectid := 10, fsk := 1, geom := miniIv, geom_area := 1/10,
    verbesserung := 1, sfl := 0, ackerzahl := 0, emz := 0 }

/-! ## Theorems -/

/-! ### Numeric helpers -/

theorem pyInt_of_nonneg {q : ℚ} (h : 0 ≤ q) : pyInt q = ⌊q⌋ := by
  simp [pyInt, h]

theorem pyRound_int_add_half (z : ℤ) : Even (pyRound ((z : ℚ) + 1/2)) := by
  have hf : ⌊(z : ℚ) + 1/2⌋ = z := by
    rw [Int.floor_int_add]
    norm_num
  have hfrac : (z : ℚ) + 1/2 - ((z : ℤ) : ℚ) = 1/2 := by ring
  unfold pyRound
  simp only [hf, hfrac, lt_irrefl, if_false]
  by_cases h : z % 2 = 0
  · simpa [h] using Int.even_iff.mpr h
  · have hodd : ¬ Even z := by
      intro he
      exact h (Int.even_iff.mp he)
    simpa [h] using Int.even_add_one.mpr hodd

/-- Faithfulness bridge for the form-index comparison: the decidable
encoding `formLt` agrees with `perimeter / sqrt(geom_area) < threshold`
over the reals on the relevant domain. -/
theorem formLt_iff_sqrt {p a t : ℚ} (hp : 0 ≤ p) (ha : 0 < a) (ht : 0 ≤ t) :
    formLt p a t ↔ (p : ℝ) / Real.sqrt (a : ℝ) < (t : ℝ) := by
  have haR : (0 : ℝ) < (a : ℝ) := by exact_mod_cast ha
  have hs : (0 : ℝ) < Real.sqrt (a : ℝ) := Real.sqrt_pos.mpr haR
  have hpR : (0 : ℝ) ≤ (p : ℝ) := by exact_mod_cast hp
  have htR : (0 : ℝ) ≤ (t : ℝ) := by exact_mod_cast ht
  rw [div_lt_iff hs]
  have hsq : ((t : ℝ) * Real.sqrt (a : ℝ)) ^ 2 = (t : ℝ) ^ 2 * (a : ℝ) := by
    rw [mul_pow, Real.sq_sqrt haR.le]
  constructor
  · intro h
    have h2 : (p : ℝ) ^ 2 < (t : ℝ) ^ 2 * (a : ℝ) := by
      have := h
      unfold formLt at this
      exact_mod_cast this
    have hts : 0 ≤ (t : ℝ) * Real.sqrt (a : ℝ) := mul_nonneg htR hs.le
    have h3 : (p : ℝ) ^ 2 < ((t : ℝ) * Real.sqrt (a : ℝ)) ^ 2 := by
      rw [hsq]
      exact h2
    exact lt_of_pow_lt_pow_left 2 hts h3
  · intro h
    have h2 : (p : ℝ) ^ 2 < ((t : ℝ) * Real.sqrt (a : ℝ)) ^ 2 :=
      pow_lt_pow_left h hpR (by norm_num)
    rw [hsq] at h2
    unfold formLt
    exact_mod_cast h2

/-! ### C4 — AreaScaler -/

/-- C4 (confirmed): immediately after the vectorised area scaling every
fragment's `sfl` equals `⌊geom_area * k + 0.5⌋` (round half up on the
non-negative product), where `k = official_area / parent_geometry_area` is
the parcel improvement factor computed by `load_flurstuecke_to_dataframe`
for parcels with positive geometry area.  Truncation (`astype(int)`) and
floor agree because the product is non-negative. -/
theorem claim_C4 (df : List Frag) (i : ℕ) (f : Frag) (k : ℚ) (afl : ℤ)
    (parentArea : ℚ) (hrow : df.get? i = some f)
    (hk : verbesserungOf afl parentArea = some k) (hv : f.verbesserung = k)
    (hga : 0 ≤ f.geom_area) (hafl : 0 ≤ afl) :
    ((areaScale df).get? i).map (·.sfl) = some ⌊f.geom_area * k + 1/2⌋ ∧
      k = (afl : ℚ) / parentArea := by
  have hpa : 0 < parentArea ∧ k = (afl : ℚ) / parentArea := by
    unfold verbesserungOf at hk
    by_cases h : 0 < parentArea
    · simp [h] at hk
      exact ⟨h, hk.symm⟩
    · simp [h] at hk
  have hknn : 0 ≤ k := by
    rw [hpa.2]
    exact div_nonneg (by exact_mod_cast hafl) hpa.1.le
  constructor
  · unfold areaScale
    rw [List.get?_map, hrow]
    simp only [Option.map_some']
    congr 1
    rw [hv, pyInt_of_nonneg (by positivity)]
  · exact hpa.2

theorem claim_C4_witness :
    verbesserungOf 1050 1000 = some (21/20) ∧
      ((areaScale [{ Frag.default with geom_area := 999, verbesserung := 21/20 }]).get? 0).map
        (·.sfl) = some ⌊(999 : ℚ) * (21/20) + 1/2⌋ := by
  refine ⟨by unfold verbesserungOf; norm_num, ?_⟩
  exact (claim_C4 [{ Frag.default with geom_area := 999, verbesserung := 21/20 }] 0
    { Frag.default with geom_area := 999, verbesserung := 21/20 } (21/20) 1050 1000
    rfl (by unfold verbesserungOf; norm_num) rfl (by norm_num) (by norm_num)).1

/-! ### C5 — YieldCalculator rounding mode -/

/-- C5 (counterexample): the claim prescribes round-half-away-from-zero, so
`sfl = 50`, `yield_number = 1` would give `emz = 1`; the code's
`int(round(sfl / 100 * ackerzahl))` (Python banker's rounding) yields `0`. -/
theorem claim_C5_counterexample :
    calcEmz 50 1 = 0 ∧ roundHalfAway ((50 : ℚ) / 100 * 1) = 1 ∧ (0 : ℤ) ≠ 1 := by
  have hq : ((50 : ℤ) : ℚ) / 100 * 1 = 1/2 := by norm_num
  have hq2 : ((50 : ℚ)) / 100 * 1 = 1/2 := by norm_num
  refine ⟨?_, ?_, by decide⟩
  · unfold calcEmz pyRound
    rw [hq]
    norm_num
  · unfold roundHalfAway
    rw [hq2]
    norm_num

/-- C5 (amended): `emz = round(sfl / 100 * yield_number)` with Python's
round-half-to-even — after a Bodenschätzung merge the enlarged main row's
EMZ is recomputed by that formula from its recomputed `sfl`; exact halves
round to the even neighbour, not away from zero; and Scenario B
(`sfl = 1000`, `yield_number = 50` ⇒ `emz = 500`) still holds. -/
theorem claim_C5_amended :
    (∀ (G : Type) (api : GeomApi G) (f : GFrag G) (g : G),
        (mergeRecalcBoden api f g).emz =
          pyRound (((mergeRecalc api f g).sfl : ℚ) / 100 * f.ackerzahl)) ∧
      (∀ z : ℤ, Even (pyRound ((z : ℚ) + 1/2))) ∧ calcEmz 1000 50 = 500 := by
  refine ⟨fun G api f g => rfl, pyRound_int_add_half, ?_⟩
  have hq : ((1000 : ℤ) : ℚ) / 100 * 50 = 500 := by norm_num
  unfold calcEmz pyRound
  rw [hq]
  norm_num

/-! ### C2 — the Bodenschätzung pipeline always returns False -/

/-- C2 (counterexample): even when every DataFrame load would succeed, the
`TypeError` the exception handler converts into `False` is raised by
`self.load_nutzung_to_dataframe(self.nutzung_dissolve)` (one positional
argument passed to a method that takes none, line 234) — execution never
reaches the `merge_mini_geometries` call the claim blames. -/
theorem claim_C2_counterexample :
    vectorizedCalculateSflBoden ⟨true, true, true⟩ =
        (false, some (.typeErr "load_nutzung_to_dataframe")) ∧
      PyExc.typeErr "load_nutzung_to_dataframe" ≠
        PyExc.typeErr "merge_mini_geometries" := by
  refine ⟨by decide, by decide⟩

/-- C2 (amended): `vectorized_calculate_sfl_boden` returns `False` for every
input — either a load returns `False`, or the mis-called
`load_nutzung_to_dataframe` raises `TypeError` first; the
`merge_mini_geometries` call site really does bind only five of the six
required positional parameters (so it would raise `TypeError` too, but it
is unreachable); consequently `calculate_sfl_bodenschaetzung` always
returns `False`. -/
theorem claim_C2_amended :
    (∀ env : BodenEnv, (vectorizedCalculateSflBoden env).1 = false) ∧
      ¬ acceptsPositional mmgParams 5 ∧
      (∀ (prepOk : Bool) (env : BodenEnv) (finOk : Bool),
        calculateSflBodenschaetzung prepOk env finOk = false) := by
  refine ⟨?_, by decide, ?_⟩
  · intro env
    rcases env with ⟨a, b, c⟩
    cases a <;> cases b <;> cases c <;> decide
  · intro prepOk env finOk
    rcases env with ⟨a, b, c⟩
    cases prepOk <;> cases a <;> cases b <;> cases c <;> cases finOk <;> decide

/-! ### C10 — empty mini set makes `merge_mini_geometries` return False -/

/-- C10 (confirmed): when no fragment satisfies `sfl <= max_shred_qm`, the
keep/merge block is skipped, the local `df_delete` is never assigned, the
`return` on line 127 raises `NameError`, and the handler returns the single
value `False` instead of the documented three-frame tuple.  The statement
is independent of the geometry oracle because that branch is unreachable. -/
theorem claim_C10 (mergeOracle : List Frag → List Frag → List Frag × List Frag × List Frag)
    (maxShred mergeArea : ℤ) (formT : ℚ) (deleteArea : Option ℚ)
    (df : List Frag) (h : ∀ f ∈ df, ¬(f.sfl ≤ maxShred)) :
    mergeMiniGeometries mergeOracle maxShred mergeArea formT deleteArea df =
      .pyFalse (.nameErr "df_delete") := by
  have hmini : df.filter (fun f => decide (f.sfl ≤ maxShred)) = [] := by
    rw [List.filter_eq_nil]
    intro f hf
    simpa using h f hf
  unfold mergeMiniGeometries
  simp [hmini]

theorem claim_C10_witness :
    mergeMiniGeometries (fun a b => (a, b, [])) 5 1 10 none [mkRow 1 1 10 10 false 0] =
      .pyFalse (.nameErr "df_delete") :=
  claim_C10 (fun a b => (a, b, [])) 5 1 10 none [mkRow 1 1 10 10 false 0] (by decide)

/-! ### C8 — keep/merge classification of mini fragments -/

/-- C8 (counterexample): a mini fragment satisfying the claimed keep
condition (its parcel's `official_area = 3 ≤ T_shred = 5`) that is
nevertheless deleted outright, because the `delete_area` filter
(lines 56–65) runs before the keep/merge split: with `merge_area = 1`,
`delete_area = 0.5`, the fragment `sfl = 1`, `geom_area = 0.1`, `afl = 3`
matches the delete mask. -/
theorem claim_C8_counterexample :
    classifyFragment 5 1 10 (some (1/2)) fragC8 = .deleteOutright ∧
      (fragC8.sfl ≤ 5 ∧ keepCond 5 1 10 fragC8) ∧
      MiniClass.deleteOutright ≠ MiniClass.keepStandalone := by
  refine ⟨?_, ⟨by decide, ?_⟩, by decide⟩
  · norm_num [classifyFragment, fragC8, Frag.default, deleteCond, keepCond, formLt]
  · unfold keepCond
    left
    decide

/-- C8 (amended): outright deletion takes precedence.  A mini fragment
(`sfl ≤ T_shred`) is kept standalone iff it does not match the configured
delete mask and satisfies `official_area ≤ T_shred ∨ (form_index < T_form ∧
sfl ≥ T_merge)`; it becomes a merge candidate iff it does not match the
delete mask and fails that keep condition. -/
theorem claim_C8_amended (maxShred mergeArea : ℤ) (formT : ℚ)
    (deleteArea : Option ℚ) (f : Frag) (hmini : f.sfl ≤ maxShred) :
    (classifyFragment maxShred mergeArea formT deleteArea f = .keepStandalone ↔
        ¬ deleteCond mergeArea deleteArea f ∧ keepCond maxShred mergeArea formT f) ∧
      (classifyFragment maxShred mergeArea formT deleteArea f = .mergeCandidate ↔
        ¬ deleteCond mergeArea deleteArea f ∧
          ¬ keepCond maxShred mergeArea formT f) := by
  unfold classifyFragment
  rw [if_neg (by simpa using hmini)]
  by_cases hdel : deleteCond mergeArea deleteArea f
  · rw [if_pos hdel]
    constructor <;> simp [hdel]
  · rw [if_neg hdel]
    by_cases hkeep : keepCond maxShred mergeArea formT f
    · rw [if_pos hkeep]
      constructor <;> simp [hdel, hkeep]
    · rw [if_neg hkeep]
      constructor <;> simp [hdel, hkeep]

theorem claim_C8_amended_witness :
    fragC8.sfl ≤ 5 ∧
      (classifyFragment 5 1 10 (some (1/2)) fragC8 = .keepStandalone ↔
        ¬ deleteCond 1 (some (1/2)) fragC8 ∧ keepCond 5 1 10 fragC8) :=
  ⟨by decide, (claim_C8_amended 5 1 10 (some (1/2)) fragC8 (by decide)).1⟩

/-! ### List helper lemmas -/

theorem sum_set_int (l : List ℤ) (j : ℕ) (b : ℤ) (h : j < l.length) :
    (l.set j b).sum = l.sum - l.getD j 0 + b := by
  induction l generalizing j with
  | nil => simp at h
  | cons a tl ih =>
    cases j with
    | zero =>
      simp only [List.set, List.sum_cons, List.getD_cons_zero]
      ring
    | succ n =>
      simp only [List.set, List.sum_cons, List.getD_cons_succ]
      rw [ih n (by simpa using h)]
      ring

theorem mem_enumFrom_rows {α : Type} :
    ∀ (l : List α) (n : ℕ) (p : ℕ × α),
      p ∈ l.enumFrom n → n ≤ p.1 ∧ l.get? (p.1 - n) = some p.2 := by
  intro l
  induction l with
  | nil => intro n p h; simp [List.enumFrom] at h
  | cons a tl ih =>
    intro n p h
    rw [List.enumFrom] at h
    rcases List.mem_cons.mp h with h0 | h1
    · subst h0
      simp
    · obtain ⟨h2, h3⟩ := ih (n + 1) p h1
      refine ⟨le_trans (Nat.le_succ n) h2, ?_⟩
      have hd : p.1 - n = (p.1 - (n + 1)) + 1 := by omega
      rw [hd, List.get?_cons_succ]
      exact h3

theorem map_snd_filter {α β : Type} (q : β → Bool) :
    ∀ l : List (α × β),
      (l.filter (fun p => q p.2)).map (·.2) = (l.map (·.2)).filter q := by
  intro l
  induction l with
  | nil => rfl
  | cons a tl ih => by_cases h : q a.2 <;> simp [List.filter_cons, h, ih]

theorem enumFrom_pairwise_fst {α : Type} :
    ∀ (l : List α) (n : ℕ), (l.enumFrom n).Pairwise (fun p q => p.1 < q.1) := by
  intro l
  induction l with
  | nil => intro n; simp [List.enumFrom]
  | cons a tl ih =>
    intro n
    rw [List.enumFrom]
    refine List.Pairwise.cons ?_ (ih (n + 1))
    intro q hq
    have := (mem_enumFrom_rows tl (n + 1) q hq).1
    simpa using lt_of_lt_of_le (Nat.lt_succ_self n) this

/-! ### `idxRows` and `groupView` facts -/

theorem idxRows_map_snd (df : List Frag) (k : ℕ) :
    (idxRows df k).map (·.2) = groupView k df := by
  unfold idxRows groupView
  rw [map_snd_filter (fun f => decide (f.fsk = k)) df.enum]
  congr 1
  exact List.enum_map_snd df

theorem mem_idxRows {df : List Frag} {k : ℕ} {p : ℕ × Frag}
    (h : p ∈ idxRows df k) : df.get? p.1 = some p.2 ∧ p.2.fsk = k := by
  unfold idxRows at h
  obtain ⟨hmem, hpred⟩ := List.mem_filter.mp h
  have h2 := mem_enumFrom_rows df 0 p (by simpa [List.enum] using hmem)
  refine ⟨by simpa using h2.2, of_decide_eq_true hpred⟩

theorem idxRows_fst_nodup (df : List Frag) (k : ℕ) :
    ((idxRows df k).map (·.1)).Nodup := by
  have h1 : (idxRows df k).Pairwise (fun p q => p.1 < q.1) := by
    unfold idxRows
    exact List.Pairwise.filter _ (by simpa [List.enum] using enumFrom_pairwise_fst df 0)
  have h2 : (idxRows df k).Pairwise (fun p q => p.1 ≠ q.1) :=
    h1.imp (fun h => ne_of_lt h)
  exact (List.pairwise_map).mpr h2

/-! ### `applyOne` / `applyAssign` pointwise facts -/

theorem applyOne_length (d : List Frag) (p : ℕ × ℤ) :
    (applyOne d p).length = d.length := by
  unfold applyOne
  by_cases h : p.2 = 0
  · rw [if_pos h]
  · rw [if_neg h]
    cases hd : d.get? p.1 with
    | none => rfl
    | some f => simp

theorem applyOne_get?_ne (d : List Frag) (p : ℕ × ℤ) (j : ℕ) (h : j ≠ p.1) :
    (applyOne d p).get? j = d.get? j := by
  unfold applyOne
  by_cases h0 : p.2 = 0
  · rw [if_pos h0]
  · rw [if_neg h0]
    cases hd : d.get? p.1 with
    | none => rfl
    | some f => exact List.get?_set_ne _ _ (fun he => h he.symm)

theorem applyOne_fsk (d : List Frag) (p : ℕ × ℤ) (j : ℕ) :
    ((applyOne d p).get? j).map (·.fsk) = (d.get? j).map (·.fsk) := by
  by_cases hj : j = p.1
  · unfold applyOne
    by_cases h0 : p.2 = 0
    · rw [if_pos h0]
    · rw [if_neg h0]
      cases hd : d.get? p.1 with
      | none => rfl
      | some f =>
        rw [hj, List.get?_set_eq, hd]
        rfl
  · rw [applyOne_get?_ne d p j hj]

theorem applyOne_get?_congr (d₁ d₂ : List Frag) (p : ℕ × ℤ) (j : ℕ)
    (_hp : d₁.get? p.1 = d₂.get? p.1) (hj : d₁.get? j = d₂.get? j) :
    (applyOne d₁ p).get? j = (applyOne d₂ p).get? j := by
  by_cases hjp : j = p.1
  · subst hjp
    unfold applyOne
    by_cases h0 : p.2 = 0
    · rw [if_pos h0, if_pos h0]
      exact hj
    · rw [if_neg h0, if_neg h0, hj]
      cases hd : d₂.get? p.1 with
      | none => exact hj
      | some f =>
        rw [List.get?_set_eq, List.get?_set_eq, hj, hd]
  · rw [applyOne_get?_ne d₁ p j hjp, applyOne_get?_ne d₂ p j hjp]
    exact hj

theorem applyAssign_length (asn : List (ℕ × ℤ)) :
    ∀ df : List Frag, (applyAssign df asn).length = df.length := by
  induction asn with
  | nil => intro df; rfl
  | cons p rest ih =>
    intro df
    show (applyAssign (applyOne df p) rest).length = df.length
    rw [ih (applyOne df p), applyOne_length]

theorem applyAssign_get?_not_mem (asn : List (ℕ × ℤ)) :
    ∀ (df : List Frag) (j : ℕ), j ∉ asn.map (·.1) →
      (applyAssign df asn).get? j = df.get? j := by
  induction asn with
  | nil => intro df j _; rfl
  | cons p rest ih =>
    intro df j hj
    rw [List.map_cons, List.mem_cons] at hj
    push_neg at hj
    show (applyAssign (applyOne df p) rest).get? j = df.get? j
    rw [ih (applyOne df p) j hj.2, applyOne_get?_ne df p j hj.1]

theorem applyAssign_fsk (asn : List (ℕ × ℤ)) :
    ∀ (df : List Frag) (j : ℕ),
      ((applyAssign df asn).get? j).map (·.fsk) = (df.get? j).map (·.fsk) := by
  induction asn with
  | nil => intro df j; rfl
  | cons p rest ih =>
    intro df j
    show ((applyAssign (applyOne df p) rest).get? j).map (·.fsk) = _
    rw [ih (applyOne df p) j, applyOne_fsk]

theorem applyAssign_get?_congr (asn : List (ℕ × ℤ)) :
    ∀ (d₁ d₂ : List Frag) (j : ℕ),
      (∀ i ∈ asn.map (·.1), d₁.get? i = d₂.get? i) → d₁.get? j = d₂.get? j →
      (applyAssign d₁ asn).get? j = (applyAssign d₂ asn).get? j := by
  induction asn with
  | nil => intro d₁ d₂ j _ hj; exact hj
  | cons p rest ih =>
    intro d₁ d₂ j hw hj
    have hp : d₁.get? p.1 = d₂.get? p.1 :=
      hw p.1 (by simp)
    show (applyAssign (applyOne d₁ p) rest).get? j = (applyAssign (applyOne d₂ p) rest).get? j
    refine ih (applyOne d₁ p) (applyOne d₂ p) j ?_
      (applyOne_get?_congr d₁ d₂ p j hp hj)
    intro i hi
    exact applyOne_get?_congr d₁ d₂ p i hp
      (hw i (by simpa using Or.inr (by simpa using hi)))

theorem applyAssign_get?_mem (asn : List (ℕ × ℤ)) :
    ∀ (df : List Frag) (i : ℕ) (s : ℤ), (asn.map (·.1)).Nodup → (i, s) ∈ asn →
      (applyAssign df asn).get? i =
        (df.get? i).map (fun f => { f with sfl := f.sfl + s }) := by
  induction asn with
  | nil => intro df i s _ h; simp at h
  | cons p rest ih =>
    intro df i s hnd hmem
    rw [List.map_cons] at hnd
    have hnd2 := List.nodup_cons.mp hnd
    rcases List.mem_cons.mp hmem with h0 | h1
    · subst h0
      show (applyAssign (applyOne df (i, s)) rest).get? i = _
      rw [applyAssign_get?_not_mem rest (applyOne df (i, s)) i hnd2.1]
      unfold applyOne
      by_cases h0 : s = 0
      · rw [if_pos (by simpa using h0)]
        subst h0
        cases hd : df.get? i with
        | none => simp [hd]
        | some f => simp [hd]
      · rw [if_neg (by simpa using h0)]
        cases hd : df.get? i with
        | none => simpa using hd
        | some f =>
          simp only [hd]
          rw [List.get?_set_eq, hd]
          rfl
    · have hip : i ≠ p.1 := by
        intro he
        exact hnd2.1 (he ▸ List.mem_map_of_mem (·.1) h1)
      show (applyAssign (applyOne df p) rest).get? i = _
      rw [ih (applyOne df p) i s hnd2.2 h1, applyOne_get?_ne df p i hip]

/-! ### Weighted group sums under assignment application -/

theorem wsum_eq_reconcilableSum (k : ℕ) :
    ∀ df : List Frag, (df.map (wNonOv k)).sum = reconcilableSum k df := by
  intro df
  induction df with
  | nil => rfl
  | cons f tl ih =>
    simp only [reconcilableSum, groupView, List.map_cons, List.sum_cons,
      List.filter_cons] at *
    by_cases h1 : f.fsk = k
    · cases hov : f.is_overlap with
      | false =>
        have hw : wNonOv k f = f.sfl := by simp [wNonOv, h1, hov]
        simp [h1, hov, hw, ih]
      | true =>
        have hw : wNonOv k f = 0 := by simp [wNonOv, hov]
        simp [h1, hov, hw, ih]
    · have hw : wNonOv k f = 0 := by simp [wNonOv, h1]
      simp [h1, hw, ih]

theorem applyAssign_wsum (k : ℕ) (asn : List (ℕ × ℤ)) :
    ∀ df : List Frag,
      (∀ p ∈ asn, ∃ f, df.get? p.1 = some f ∧ f.fsk = k ∧ f.is_overlap = false) →
      ((applyAssign df asn).map (wNonOv k)).sum =
        (df.map (wNonOv k)).sum + (asn.map (·.2)).sum := by
  induction asn with
  | nil => intro df _; simp [applyAssign]
  | cons p rest ih =>
    intro df hprops
    obtain ⟨f, hf, hfk, hov⟩ := hprops p (List.mem_cons_self p rest)
    have hlt : p.1 < df.length := by
      rcases List.get?_eq_some.mp hf with ⟨h, _⟩
      exact h
    have hone : ((applyOne df p).map (wNonOv k)).sum = (df.map (wNonOv k)).sum + p.2 := by
      unfold applyOne
      by_cases h0 : p.2 = 0
      · rw [if_pos h0, h0]
        ring
      · rw [if_neg h0, hf]
        have hmset : (df.set p.1 { f with sfl := f.sfl + p.2 }).map (wNonOv k) =
            (df.map (wNonOv k)).set p.1 (wNonOv k { f with sfl := f.sfl + p.2 }) :=
          List.map_set ..
        rw [hmset, sum_set_int _ _ _ (by simpa using hlt)]
        have hgd : (df.map (wNonOv k)).getD p.1 0 = wNonOv k f := by
          rw [List.getD_eq_getElem?_getD]
          rw [List.getElem?_map]
          rw [← List.get?_eq_getElem?, hf]
          rfl
        rw [hgd]
        have hw1 : wNonOv k f = f.sfl := by simp [wNonOv, hfk, hov]
        have hw2 : wNonOv k { f with sfl := f.sfl + p.2 } = f.sfl + p.2 := by
          simp [wNonOv, hfk, hov]
        rw [hw1, hw2]
        ring
    have hrest : ∀ q ∈ rest, ∃ g, (applyOne df p).get? q.1 = some g ∧
        g.fsk = k ∧ g.is_overlap = false := by
      intro q hq
      obtain ⟨g, hg, hgk, hgov⟩ := hprops q (List.mem_cons_of_mem p hq)
      by_cases hque : q.1 = p.1
      · refine ⟨{ f with sfl := f.sfl + p.2 }, ?_, hfk, hov⟩
        rw [hque]
        unfold applyOne
        by_cases h0 : p.2 = 0
        · rw [if_pos h0, hf, h0]
          simp
        · rw [if_neg h0, hf, List.get?_set_eq, hf]
          rfl
      · exact ⟨g, by rw [applyOne_get?_ne df p q.1 hque]; exact hg, hgk, hgov⟩
    show ((applyAssign (applyOne df p) rest).map (wNonOv k)).sum = _
    rw [ih (applyOne df p) hrest, hone]
    simp only [List.map_cons, List.sum_cons]
    ring

/-! ### Group keys -/

theorem keysAux_mem : ∀ (l seen : List ℕ) (j : ℕ),
    j ∈ keysAux l seen ↔ j ∈ l ∧ j ∉ seen := by
  intro l
  induction l with
  | nil => intro seen j; simp [keysAux]
  | cons a tl ih =>
    intro seen j
    unfold keysAux
    by_cases h : a ∈ seen
    · rw [if_pos h, ih]
      constructor
      · rintro ⟨h1, h2⟩
        exact ⟨List.mem_cons_of_mem a h1, h2⟩
      · rintro ⟨h1, h2⟩
        rcases List.mem_cons.mp h1 with h3 | h3
        · exact absurd (h3 ▸ h) h2
        · exact ⟨h3, h2⟩
    · rw [if_neg h]
      constructor
      · intro h1
        rcases List.mem_cons.mp h1 with h3 | h3
        · exact ⟨h3 ▸ List.mem_cons_self a tl, h3 ▸ h⟩
        · obtain ⟨h4, h5⟩ := (ih (a :: seen) j).mp h3
          exact ⟨List.mem_cons_of_mem a h4,
            fun hc => h5 (List.mem_cons_of_mem a hc)⟩
      · rintro ⟨h1, h2⟩
        rcases List.mem_cons.mp h1 with h3 | h3
        · exact h3 ▸ List.mem_cons_self a _
        · by_cases hja : j = a
          · exact hja ▸ List.mem_cons_self a _
          · exact List.mem_cons_of_mem a ((ih (a :: seen) j).mpr
              ⟨h3, fun hc => (List.mem_cons.mp hc).elim hja h2⟩)

theorem keysAux_nodup : ∀ l seen : List ℕ, (keysAux l seen).Nodup := by
  intro l
  induction l with
  | nil => intro seen; simp [keysAux]
  | cons a tl ih =>
    intro seen
    unfold keysAux
    by_cases h : a ∈ seen
    · rw [if_pos h]
      exact ih seen
    · rw [if_neg h]
      refine List.nodup_cons.mpr ⟨?_, ih (a :: seen)⟩
      intro hc
      exact ((keysAux_mem tl (a :: seen) a).mp hc).2 (List.mem_cons_self a seen)

theorem groupKeys_mem {df : List Frag} {k : ℕ} :
    k ∈ groupKeys df ↔ ∃ f ∈ df, f.fsk = k := by
  unfold groupKeys
  rw [keysAux_mem]
  simp [List.mem_map, eq_comm]

theorem groupKeys_nodup (df : List Frag) : (groupKeys df).Nodup :=
  keysAux_nodup _ _

/-! ### Congruence of group extraction under off-group edits -/

theorem filter_fsk_congr (k : ℕ) :
    ∀ l₁ l₂ : List Frag, l₁.length = l₂.length →
      (∀ j, (l₁.get? j).map (·.fsk) = (l₂.get? j).map (·.fsk)) →
      (∀ j f, l₁.get? j = some f → f.fsk = k → l₂.get? j = some f) →
      groupView k l₁ = groupView k l₂ := by
  intro l₁
  induction l₁ with
  | nil =>
    intro l₂ hlen _ _
    cases l₂ with
    | nil => rfl
    | cons b t₂ => simp at hlen
  | cons a t₁ ih =>
    intro l₂ hlen hfsk huntouched
    cases l₂ with
    | nil => simp at hlen
    | cons b t₂ =>
      have hab : a.fsk = b.fsk := by
        have := hfsk 0
        simpa using this
      have htl := ih t₂ (by simpa using hlen)
        (fun j => by simpa using hfsk (j + 1))
        (fun j f hf hk => by simpa using huntouched (j + 1) f (by simpa using hf) hk)
      unfold groupView at *
      rw [List.filter_cons, List.filter_cons]
      by_cases hk : a.fsk = k
      · have hb : b = a := by
          have := huntouched 0 a (by simp) hk
          simpa [eq_comm] using this
        simp only [hk, hb, htl]
      · have hbk : ¬(b.fsk = k) := by
          rw [← hab]
          exact hk
        simp only [htl]
        simp [hk, hbk]

theorem filterEnum_congr (k : ℕ) :
    ∀ (l₁ l₂ : List Frag) (n : ℕ), l₁.length = l₂.length →
      (∀ j, (l₁.get? j).map (·.fsk) = (l₂.get? j).map (·.fsk)) →
      (∀ j f, l₁.get? j = some f → f.fsk = k → l₂.get? j = some f) →
      (l₁.enumFrom n).filter (fun p => decide (p.2.fsk = k)) =
        (l₂.enumFrom n).filter (fun p => decide (p.2.fsk = k)) := by
  intro l₁
  induction l₁ with
  | nil =>
    intro l₂ n hlen _ _
    cases l₂ with
    | nil => rfl
    | cons b t₂ => simp at hlen
  | cons a t₁ ih =>
    intro l₂ n hlen hfsk huntouched
    cases l₂ with
    | nil => simp at hlen
    | cons b t₂ =>
      have hab : a.fsk = b.fsk := by
        have := hfsk 0
        simpa using this
      have htl := ih t₂ (n + 1) (by simpa using hlen)
        (fun j => by simpa using hfsk (j + 1))
        (fun j f hf hk => by simpa using huntouched (j + 1) f (by simpa using hf) hk)
      rw [List.enumFrom, List.enumFrom, List.filter_cons, List.filter_cons]
      by_cases hk : a.fsk = k
      · have hb : b = a := by
          have := huntouched 0 a (by simp) hk
          simpa [eq_comm] using this
        simp only [hb, htl]
      · have hbk : ¬(b.fsk = k) := by
          rw [← hab]
          exact hk
        simp only [htl]
        simp [hk, hbk]

theorem idxRows_congr (k : ℕ) (l₁ l₂ : List Frag) (hlen : l₁.length = l₂.length)
    (hfsk : ∀ j, (l₁.get? j).map (·.fsk) = (l₂.get? j).map (·.fsk))
    (huntouched : ∀ j f, l₁.get? j = some f → f.fsk = k → l₂.get? j = some f) :
    idxRows l₁ k = idxRows l₂ k := by
  unfold idxRows
  exact filterEnum_congr k l₁ l₂ 0 hlen hfsk huntouched

/-! ### Eligible rows and assignment membership -/

theorem mem_eligList {t : ℤ} {rows : List (ℕ × Frag)} {q : ℕ × Frag}
    (h : q ∈ eligList t rows) :
    q ∈ rows ∧ q.2.is_overlap = false ∧ t ≤ q.2.sfl := by
  unfold eligList at h
  obtain ⟨hmem, hpred⟩ := List.mem_filter.mp h
  have hmem2 : q ∈ rows := by
    unfold sortRowsDesc at hmem
    exact (List.perm_insertionSort sflGe rows).mem_iff.mp hmem
  rw [Bool.and_eq_true] at hpred
  exact ⟨hmem2, by simpa using hpred.1, of_decide_eq_true hpred.2⟩

theorem mem_correctAssignments {t : ℤ} {rows : List (ℕ × Frag)} {p : ℕ × ℤ}
    (h : p ∈ correctAssignments t rows) :
    ∃ q ∈ eligList t rows, p.1 = q.1 := by
  unfold correctAssignments at h
  split at h
  · simp at h
  · rename_i r0 rrest
    simp only [] at h
    split at h
    · simp at h
    · split at h
      · simp at h
      · split at h
        · simp at h
        · rename_i e0 eRest heq
          split at h
          · simp at h
          · simp only [List.mem_map, List.mem_append, List.mem_singleton] at h
            obtain ⟨q', hq', hpq'⟩ := h
            rcases hq' with hq1 | hq2
            · obtain ⟨r, hr, hrq⟩ := hq1
              refine ⟨r, ?_, ?_⟩
              · rw [heq]
                exact List.mem_cons_of_mem e0 hr
              · rw [← hpq']
                rw [← hrq]
            · refine ⟨e0, ?_, ?_⟩
              · rw [heq]
                exact List.mem_cons_self e0 eRest
              · rw [← hpq', hq2]

theorem mem_correctAssignments_props {t : ℤ} {df : List Frag} {k : ℕ} {p : ℕ × ℤ}
    (h : p ∈ correctAssignments t (idxRows df k)) :
    ∃ f, df.get? p.1 = some f ∧ f.fsk = k ∧ f.is_overlap = false ∧ t ≤ f.sfl := by
  obtain ⟨q, hq, hpq⟩ := mem_correctAssignments h
  obtain ⟨hrows, hov, hsfl⟩ := mem_eligList hq
  obtain ⟨hget, hfk⟩ := mem_idxRows hrows
  exact ⟨q.2, hpq ▸ hget, hfk, hov, hsfl⟩

/-! ### One group step and the fold over all groups -/

theorem stepGroup_length (t : ℤ) (k : ℕ) (df : List Frag) :
    (stepGroup t k df).length = df.length :=
  applyAssign_length _ df

theorem stepGroup_fsk (t : ℤ) (k : ℕ) (df : List Frag) (j : ℕ) :
    ((stepGroup t k df).get? j).map (·.fsk) = (df.get? j).map (·.fsk) :=
  applyAssign_fsk _ df j

theorem stepGroup_get?_offgroup {t : ℤ} {k : ℕ} {df : List Frag} {j : ℕ} {g : Frag}
    (hg : df.get? j = some g) (hne : g.fsk ≠ k) :
    (stepGroup t k df).get? j = df.get? j := by
  apply applyAssign_get?_not_mem
  intro hc
  rw [List.mem_map] at hc
  obtain ⟨p, hp, hpj⟩ := hc
  obtain ⟨f, hget, hfk, _, _⟩ := mem_correctAssignments_props hp
  rw [hpj, hg] at hget
  exact hne (by rw [← hfk, Option.some_inj.mp hget])

theorem foldSteps_length (t : ℤ) :
    ∀ (ks : List ℕ) (d : List Frag),
      (ks.foldl (fun d k => stepGroup t k d) d).length = d.length := by
  intro ks
  induction ks with
  | nil => intro d; rfl
  | cons k' rest ih =>
    intro d
    rw [List.foldl_cons, ih, stepGroup_length]

theorem foldSteps_fsk (t : ℤ) :
    ∀ (ks : List ℕ) (d : List Frag) (j : ℕ),
      ((ks.foldl (fun d k => stepGroup t k d) d).get? j).map (·.fsk) =
        (d.get? j).map (·.fsk) := by
  intro ks
  induction ks with
  | nil => intro d j; rfl
  | cons k' rest ih =>
    intro d j
    rw [List.foldl_cons, ih, stepGroup_fsk]

theorem foldSteps_notouch (t : ℤ) {k : ℕ} :
    ∀ (ks : List ℕ) (d : List Frag) (j : ℕ) (f : Frag), k ∉ ks →
      d.get? j = some f → f.fsk = k →
      (ks.foldl (fun d k => stepGroup t k d) d).get? j = some f := by
  intro ks
  induction ks with
  | nil => intro d j f _ hf _; exact hf
  | cons k' rest ih =>
    intro d j f hk hf hfk
    rw [List.mem_cons] at hk
    push_neg at hk
    rw [List.foldl_cons]
    refine ih (stepGroup t k' d) j f hk.2 ?_ hfk
    rw [stepGroup_get?_offgroup hf (by rw [hfk]; exact hk.1)]
    exact hf

/-- Pointwise scope of the delta correction: the whole per-group pipeline
acts on any row exactly as the single step of that row's own parent group
acting on the untouched input DataFrame. -/
theorem delta_pointwise (t : ℤ) (df : List Frag) (i : ℕ) (f : Frag)
    (h : df.get? i = some f) :
    (applyDeltaCorrectionNutzung t df).get? i = (stepGroup t f.fsk df).get? i := by
  have hmem : f ∈ df := List.get?_mem h
  have hk : f.fsk ∈ groupKeys df := groupKeys_mem.mpr ⟨f, hmem, rfl⟩
  obtain ⟨A, B, hAB⟩ := List.append_of_mem hk
  have hnd := groupKeys_nodup df
  rw [hAB] at hnd
  have hnA : f.fsk ∉ A := by
    intro hc
    exact (List.nodup_append.mp hnd).2.2 hc (List.mem_cons_self _ _)
  have hnB : f.fsk ∉ B :=
    (List.nodup_cons.mp (List.nodup_append.mp hnd).2.1).1
  unfold applyDeltaCorrectionNutzung
  rw [hAB, List.foldl_append, List.foldl_cons]
  have hiA : (A.foldl (fun d k => stepGroup t k d) df).get? i = some f :=
    foldSteps_notouch t A df i f hnA h rfl
  have hrows : idxRows (A.foldl (fun d k => stepGroup t k d) df) f.fsk =
      idxRows df f.fsk :=
    (idxRows_congr f.fsk df (A.foldl (fun d k => stepGroup t k d) df)
      (foldSteps_length t A df).symm
      (fun j => (foldSteps_fsk t A df j).symm)
      (fun j g hg hgk => foldSteps_notouch t A df j g hnA hg hgk)).symm
  have hstepi : (stepGroup t f.fsk (A.foldl (fun d k => stepGroup t k d) df)).get? i =
      (stepGroup t f.fsk df).get? i := by
    show (applyAssign (A.foldl (fun d k => stepGroup t k d) df)
        (correctAssignments t (idxRows (A.foldl (fun d k => stepGroup t k d) df) f.fsk))).get? i =
      (applyAssign df (correctAssignments t (idxRows df f.fsk))).get? i
    rw [hrows]
    refine applyAssign_get?_congr _ _ _ i ?_ (hiA.trans h.symm)
    intro i2 hi2
    rw [List.mem_map] at hi2
    obtain ⟨p, hp, hpi⟩ := hi2
    obtain ⟨g, hget, hgk, _, _⟩ := mem_correctAssignments_props hp
    rw [hpi] at hget
    rw [foldSteps_notouch t A df i2 g hnA hget hgk, hget]
  have hXfsk : ((stepGroup t f.fsk (A.foldl (fun d k => stepGroup t k d) df)).get? i).map
      (·.fsk) = some f.fsk := by
    rw [stepGroup_fsk, hiA]
    rfl
  obtain ⟨g, hg, hgk⟩ : ∃ g,
      (stepGroup t f.fsk (A.foldl (fun d k => stepGroup t k d) df)).get? i = some g ∧
        g.fsk = f.fsk := by
    cases hx : (stepGroup t f.fsk (A.foldl (fun d k => stepGroup t k d) df)).get? i with
    | none => rw [hx] at hXfsk; simp at hXfsk
    | some g =>
      refine ⟨g, rfl, ?_⟩
      rw [hx] at hXfsk
      simpa using hXfsk
  calc (B.foldl (fun d k => stepGroup t k d)
        (stepGroup t f.fsk (A.foldl (fun d k => stepGroup t k d) df))).get? i
      = some g := foldSteps_notouch t B _ i g hnB hg hgk
    _ = (stepGroup t f.fsk (A.foldl (fun d k => stepGroup t k d) df)).get? i := hg.symm
    _ = (stepGroup t f.fsk df).get? i := hstepi

/-- Group-view scope of the delta correction: the pipeline's effect on one
parent group equals the effect of that group's own step alone. -/
theorem delta_groupView (t : ℤ) (df : List Frag) (k : ℕ) :
    groupView k (applyDeltaCorrectionNutzung t df) =
      groupView k (stepGroup t k df) := by
  apply filter_fsk_congr k
  · show (applyDeltaCorrectionNutzung t df).length = (stepGroup t k df).length
    unfold applyDeltaCorrectionNutzung
    rw [foldSteps_length, stepGroup_length]
  · intro j
    show ((applyDeltaCorrectionNutzung t df).get? j).map (·.fsk) = _
    unfold applyDeltaCorrectionNutzung
    rw [foldSteps_fsk, stepGroup_fsk]
  · intro j g hg hgk
    have hfsk : ((applyDeltaCorrectionNutzung t df).get? j).map (·.fsk) =
        (df.get? j).map (·.fsk) := by
      unfold applyDeltaCorrectionNutzung
      exact foldSteps_fsk t _ df j
    rw [hg] at hfsk
    obtain ⟨g0, hg0, hg0k⟩ : ∃ g0, df.get? j = some g0 ∧ g0.fsk = g.fsk := by
      cases hx : df.get? j with
      | none => rw [hx] at hfsk; simp at hfsk
      | some g0 =>
        refine ⟨g0, rfl, ?_⟩
        rw [hx] at hfsk
        exact (by simpa using hfsk.symm)
    have hpw := delta_pointwise t df j g0 hg0
    rw [hg0k, hgk] at hpw
    rw [← hpw]
    exact hg

/-! ### Closed forms of the per-group assignments -/

theorem correctAssignments_spec (t : ℤ) (r0 : ℕ × Frag) (rrest : List (ℕ × Frag))
    (e0 : ℕ × Frag) (eRest : List (ℕ × Frag)) (S total : ℤ)
    (hS : S = ((List.filter (fun p => !p.2.is_overlap) (r0 :: rrest)).map
      (fun x => x.2.sfl)).sum)
    (heq : eligList t (r0 :: rrest) = e0 :: eRest)
    (htotal : total = ((eligList t (r0 :: rrest)).map (fun x => x.2.sfl)).sum)
    (hne : S ≠ r0.2.amtliche_flaeche)
    (habs : |r0.2.amtliche_flaeche - S| < t)
    (htot : 0 < total) :
    correctAssignments t (r0 :: rrest) =
      ((eRest.map (fun p => (p.1,
          pyInt (((|r0.2.amtliche_flaeche - S| : ℤ) : ℚ) * ((p.2.sfl : ℚ) / (total : ℚ))))))
        ++ [(e0.1, |r0.2.amtliche_flaeche - S| -
          ((eRest.map (fun p => (p.1,
            pyInt (((|r0.2.amtliche_flaeche - S| : ℤ) : ℚ) * ((p.2.sfl : ℚ) / (total : ℚ)))))).map
              (fun x => x.2)).sum)]).map
        (fun p => (p.1, (if 0 ≤ r0.2.amtliche_flaeche - S then 1 else -1) * p.2)) := by
  have htotQ : ¬((total : ℚ) ≤ 0) := by
    push_neg
    exact_mod_cast htot
  have htotal2 : total = ((e0 :: eRest).map (fun x => x.2.sfl)).sum := by
    rw [htotal, heq]
  unfold correctAssignments
  simp only []
  rw [← hS]
  rw [if_neg hne, if_neg (not_le.mpr habs)]
  simp only [heq]
  rw [← htotal2]
  rw [if_neg htotQ]

theorem correctAssignments_eq_nil (t : ℤ) (r0 : ℕ × Frag) (rrest : List (ℕ × Frag))
    (hbig : t ≤ |r0.2.amtliche_flaeche -
      ((List.filter (fun p => !p.2.is_overlap) (r0 :: rrest)).map
        (fun x => x.2.sfl)).sum|) :
    correctAssignments t (r0 :: rrest) = [] := by
  unfold correctAssignments
  simp only []
  by_cases h1 : ((List.filter (fun p => !p.2.is_overlap) (r0 :: rrest)).map
      (fun x => x.2.sfl)).sum = r0.2.amtliche_flaeche
  · rw [if_pos h1]
  · rw [if_neg h1, if_pos hbig]

/-! ### Bridges between row-level and group-view quantities -/

theorem rows_of_groupView {df : List Frag} {k : ℕ} {f0 : Frag} {rest : List Frag}
    (hg : groupView k df = f0 :: rest) :
    ∃ r0 rrest, idxRows df k = r0 :: rrest ∧ r0.2 = f0 := by
  have hmap := idxRows_map_snd df k
  cases hr : idxRows df k with
  | nil =>
    rw [hr, hg] at hmap
    simp at hmap
  | cons r0 rrest =>
    rw [hr, hg] at hmap
    simp only [List.map_cons, List.cons.injEq] at hmap
    exact ⟨r0, rrest, rfl, hmap.1⟩

theorem rowsSum_eq_reconcilable (df : List Frag) (k : ℕ) :
    ((List.filter (fun p => !p.2.is_overlap) (idxRows df k)).map
      (fun x => x.2.sfl)).sum = reconcilableSum k df := by
  unfold reconcilableSum
  rw [← idxRows_map_snd df k]
  rw [← map_snd_filter (fun f => !f.is_overlap) (idxRows df k)]
  rw [List.map_map]
  rfl

theorem eligList_nonempty {t : ℤ} {df : List Frag} {k : ℕ}
    (helig : ∃ f ∈ groupView k df, f.is_overlap = false ∧ t ≤ f.sfl) :
    eligList t (idxRows df k) ≠ [] := by
  obtain ⟨f, hfmem, hfov, hfsfl⟩ := helig
  rw [← idxRows_map_snd df k] at hfmem
  obtain ⟨q, hq, hq2⟩ := List.mem_map.mp hfmem
  intro hnil
  have hqe : q ∈ eligList t (idxRows df k) := by
    refine List.mem_filter.mpr ⟨?_, ?_⟩
    · unfold sortRowsDesc
      exact (List.perm_insertionSort sflGe _).mem_iff.mpr hq
    · rw [Bool.and_eq_true]
      exact ⟨by simp [hq2, hfov], decide_eq_true (hq2 ▸ hfsfl)⟩
  rw [hnil] at hqe
  simp at hqe

theorem eligTotal_pos {t : ℤ} {rows : List (ℕ × Frag)} (ht0 : 0 < t)
    (e0 : ℕ × Frag) (eRest : List (ℕ × Frag)) (heq : eligList t rows = e0 :: eRest) :
    0 < ((eligList t rows).map (fun x => x.2.sfl)).sum := by
  have he0mem : e0 ∈ eligList t rows := by
    rw [heq]
    exact List.mem_cons_self e0 eRest
  have he0 : t ≤ e0.2.sfl := (mem_eligList he0mem).2.2
  rw [heq]
  simp only [List.map_cons, List.sum_cons]
  refine add_pos_of_pos_of_nonneg (lt_of_lt_of_le ht0 he0) (List.sum_nonneg ?_)
  intro x hx
  obtain ⟨q, hq, rfl⟩ := List.mem_map.mp hx
  have hqmem : q ∈ eligList t rows := by
    rw [heq]
    exact List.mem_cons_of_mem e0 hq
  exact le_trans ht0.le (mem_eligList hqmem).2.2

theorem snd_sum_sign_map (sign : ℤ) (L : List (ℕ × ℤ)) :
    ((L.map (fun p => (p.1, sign * p.2))).map (fun x => x.2)).sum =
      sign * (L.map (fun x => x.2)).sum := by
  induction L with
  | nil => simp
  | cons a tl ih =>
    simp only [List.map_cons, List.sum_cons, ih]
    ring

theorem sign_mul_abs (delta : ℤ) :
    (if 0 ≤ delta then (1 : ℤ) else -1) * |delta| = delta := by
  by_cases h : 0 ≤ delta
  · rw [if_pos h, abs_of_nonneg h, one_mul]
  · rw [if_neg h, abs_of_neg (not_le.mp h)]
    ring

/-! ### C6 — large deltas are skipped, with no anomaly record -/

/-- C6 (counterexample): a group whose residual delta is `7 ≥ T = 5` passes
through the delta correction completely unchanged, and the function emits no
warning and builds no anomaly report — contradicting the claim that an
uncorrected-delta anomaly is recorded. -/
theorem claim_C6_counterexample :
    applyDeltaCorrectionNutzung 5 dfC6 = dfC6 ∧
      deltaCorrectionNutzungWarnings 5 dfC6 = [] ∧
      |1147 - reconcilableSum 2 dfC6| = 7 ∧ (5 : ℤ) ≤ 7 := by
  refine ⟨by rfl, rfl, by decide, by decide⟩

/-- C6 (amended): for every parent group whose residual delta satisfies
`abs_delta >= max_shred_qm`, the delta correction leaves every fragment of
that group unchanged and records nothing — no anomaly is emitted; the
uncorrected delta is silently skipped (`calc_sfl_nutzung.py` 352–354). -/
theorem claim_C6_amended (t : ℤ) (df : List Frag) (k : ℕ) (f0 : Frag)
    (rest : List Frag) (hg : groupView k df = f0 :: rest)
    (hbig : t ≤ |f0.amtliche_flaeche - reconcilableSum k df|) :
    groupView k (applyDeltaCorrectionNutzung t df) = groupView k df ∧
      deltaCorrectionNutzungWarnings t df = [] := by
  refine ⟨?_, rfl⟩
  obtain ⟨r0, rrest, hr, hr0⟩ := rows_of_groupView hg
  have hsums := rowsSum_eq_reconcilable df k
  rw [hr] at hsums
  have hnil : correctAssignments t (idxRows df k) = [] := by
    rw [hr]
    apply correctAssignments_eq_nil
    rw [hsums, hr0]
    exact hbig
  have hstep : stepGroup t k df = df := by
    unfold stepGroup
    rw [hnil]
    rfl
  rw [delta_groupView t df k, hstep]

theorem claim_C6_amended_witness :
    groupView 2 (applyDeltaCorrectionNutzung 5 dfC6) = groupView 2 dfC6 ∧
      deltaCorrectionNutzungWarnings 5 dfC6 = [] :=
  claim_C6_amended 5 dfC6 2 (mkRow 1 2 600 1147 false 0) [mkRow 2 2 540 1147 false 0]
    (by rfl) (by decide)

/-! ### C1 — exactness of the delta correction -/

/-- C1 (counterexample): the Bodenschätzung delta correction does not
reconcile exactly.  For the group `sfl = [500, 400, 250]` with target
`schaetz_afl = 1147` (delta `-3`, `0 < 3 < 5`, eligible rows present), the
ceil-based shares overshoot: the loop gives `500 → 498`, `400 → 398`, leaves
`250`, and the final sum is `1146 ≠ 1147`. -/
theorem claim_C1_counterexample :
    ((applyDeltaCorrectionBoden 5 dfB).map (·.sfl)).sum = 1146 ∧
      (dfB.map (·.sfl)).sum = 1150 ∧
      (∀ f ∈ dfB, f.schaetz_afl = 1147 ∧ f.is_overlap = false) ∧
      (0 : ℤ) < |(1147 : ℤ) - 1150| ∧ |(1147 : ℤ) - 1150| < 5 ∧
      (∃ f ∈ dfB, (5 : ℤ) ≤ f.sfl) ∧ (1146 : ℤ) ≠ 1147 := by
  refine ⟨?_, by decide, by decide, by decide, by decide, by decide, by decide⟩
  have hc1 : ⌈(1500 : ℚ) / 1147⌉ = 2 := by
    rw [Int.ceil_eq_iff]
    norm_num
  have hc2 : ⌈(1200 : ℚ) / 1147⌉ = 2 := by
    rw [Int.ceil_eq_iff]
    norm_num
  norm_num [applyDeltaCorrectionBoden, dfB, mkRow, Frag.default, groupKeys, keysAux,
    bodenStepGroup, idxRows, sortRowsDesc, bodenRowStep, calcEmz, pyRound,
    List.insertionSort, List.orderedInsert, sflGe, List.enum, List.enumFrom, hc1, hc2]

/-- C1 (amended): the exactness guarantee holds for the Nutzung delta
correction `_apply_delta_correction_nutzung`: for every parent group with
`0 < |official_area - sfl_sum| < max_shred_qm` and a non-empty eligible set
(non-overlap fragments with `sfl >= max_shred_qm`), the non-overlap `sfl`
sum of the group equals `official_area` exactly after the correction.  The
Bodenschätzung variant `_apply_delta_correction_boden` does not satisfy the
analogous property (see the counterexample). -/
theorem claim_C1_amended (t : ℤ) (df : List Frag) (k : ℕ) (f0 : Frag)
    (rest : List Frag) (hg : groupView k df = f0 :: rest)
    (hpos : 0 < |f0.amtliche_flaeche - reconcilableSum k df|)
    (hlt : |f0.amtliche_flaeche - reconcilableSum k df| < t)
    (helig : ∃ f ∈ groupView k df, f.is_overlap = false ∧ t ≤ f.sfl) :
    reconcilableSum k (applyDeltaCorrectionNutzung t df) = f0.amtliche_flaeche := by
  obtain ⟨r0, rrest, hr, hr0⟩ := rows_of_groupView hg
  have hSb := rowsSum_eq_reconcilable df k
  rw [hr] at hSb
  have hnonnil := eligList_nonempty helig
  rcases he : eligList t (idxRows df k) with _ | ⟨e0, eRest⟩
  · exact absurd he hnonnil
  have ht0 : 0 < t := lt_trans hpos hlt
  have htot : 0 < ((eligList t (idxRows df k)).map (fun x => x.2.sfl)).sum :=
    eligTotal_pos ht0 e0 eRest he
  have hne' : reconcilableSum k df ≠ r0.2.amtliche_flaeche := by
    rw [hr0]
    exact (sub_ne_zero.mp (abs_pos.mp hpos)).symm
  have habs' : |r0.2.amtliche_flaeche - reconcilableSum k df| < t := by
    rw [hr0]
    exact hlt
  have hspec := correctAssignments_spec t r0 rrest e0 eRest (reconcilableSum k df)
    (((eligList t (idxRows df k)).map (fun x => x.2.sfl)).sum)
    hSb.symm
    (by rw [← hr]; exact he)
    (by rw [hr])
    hne' habs' htot
  have hasnsum : ((correctAssignments t (idxRows df k)).map (fun x => x.2)).sum =
      f0.amtliche_flaeche - reconcilableSum k df := by
    rw [hr, hspec, snd_sum_sign_map, List.map_append, List.sum_append]
    simp only [List.map_cons, List.map_nil, List.sum_cons, List.sum_nil]
    rw [← hr0]
    have hcancel : ∀ a b : ℤ, a + (b - a + 0) = b := by intro a b; ring
    rw [hcancel]
    exact sign_mul_abs _
  have hprops : ∀ p ∈ correctAssignments t (idxRows df k),
      ∃ f, df.get? p.1 = some f ∧ f.fsk = k ∧ f.is_overlap = false := by
    intro p hp
    obtain ⟨f, h1, h2, h3, _⟩ := mem_correctAssignments_props hp
    exact ⟨f, h1, h2, h3⟩
  calc reconcilableSum k (applyDeltaCorrectionNutzung t df)
      = reconcilableSum k (stepGroup t k df) := by
        unfold reconcilableSum
        rw [delta_groupView]
    _ = ((stepGroup t k df).map (wNonOv k)).sum :=
        (wsum_eq_reconcilableSum k _).symm
    _ = (df.map (wNonOv k)).sum +
        ((correctAssignments t (idxRows df k)).map (fun x => x.2)).sum :=
        applyAssign_wsum k _ df hprops
    _ = reconcilableSum k df + (f0.amtliche_flaeche - reconcilableSum k df) := by
        rw [wsum_eq_reconcilableSum, hasnsum]
    _ = f0.amtliche_flaeche := by ring

theorem claim_C1_amended_witness :
    (groupView 1 dfA = mkRow 1 1 500 1147 false 0 ::
        [mkRow 2 1 400 1147 false 0, mkRow 3 1 250 1147 false 0]) ∧
      reconcilableSum 1 (applyDeltaCorrectionNutzung 5 dfA) = 1147 :=
  ⟨by rfl,
    claim_C1_amended 5 dfA 1 (mkRow 1 1 500 1147 false 0)
      [mkRow 2 1 400 1147 false 0, mkRow 3 1 250 1147 false 0]
      (by rfl) (by decide) (by decide) (by decide)⟩

/-! ### C3 — the proportional share formula -/

theorem map_fst_pairmap {α β : Type} (g : ℕ × α → β) (L : List (ℕ × α)) :
    ((L.map (fun p => (p.1, g p))).map (fun x => x.1)) = L.map (fun x => x.1) := by
  induction L with
  | nil => rfl
  | cons a tl ih => simp only [List.map_cons, ih]

theorem map_snd_pairmap {α β : Type} (g : ℕ × α → β) (L : List (ℕ × α)) :
    ((L.map (fun p => (p.1, g p))).map (fun x => x.2)) = L.map g := by
  induction L with
  | nil => rfl
  | cons a tl ih => simp only [List.map_cons, ih]

theorem eligList_fst_nodup (t : ℤ) (df : List Frag) (k : ℕ) :
    ((eligList t (idxRows df k)).map (fun x => x.1)).Nodup := by
  have h1 := idxRows_fst_nodup df k
  have hperm : List.Perm ((sortRowsDesc (idxRows df k)).map (fun x => x.1))
      ((idxRows df k).map (fun x => x.1)) :=
    (List.perm_insertionSort sflGe _).map _
  have h2 : ((sortRowsDesc (idxRows df k)).map (fun x => x.1)).Nodup :=
    hperm.nodup_iff.mpr h1
  unfold eligList
  exact h2.sublist ((List.filter_sublist _).map _)

theorem share_eq_floor (absd sfl total : ℤ) (h1 : 0 ≤ absd) (h2 : 0 ≤ sfl)
    (h3 : 0 < total) :
    pyInt (((absd : ℤ) : ℚ) * ((sfl : ℚ) / (total : ℚ))) =
      ⌊((absd * sfl : ℤ) : ℚ) / ((total : ℤ) : ℚ)⌋ := by
  have htQ : (0 : ℚ) < (total : ℚ) := by exact_mod_cast h3
  rw [pyInt_of_nonneg (mul_nonneg (by exact_mod_cast h1)
    (div_nonneg (by exact_mod_cast h2) htQ.le))]
  congr 1
  push_cast
  ring

/-- C3 (confirmed): in the Nutzung delta correction, for a group with
`0 < abs_delta < max_shred_qm` and a non-empty eligible set, there is an
eligible row of maximal `sfl` (the head of the code's descending order)
receiving `remainder = abs_delta - sum(other shares)`, while every other
eligible row receives `floor(abs_delta * sfl / total)`, each applied with
the sign of delta; Scenario A (`official_area = 1147`, `sfl = [500,400,250]`,
thresholds 5) ends at `[498, 399, 250]`. -/
theorem claim_C3 :
    (∀ (t : ℤ) (df : List Frag) (k : ℕ) (f0 : Frag) (rest : List Frag)
      (absd sign totalZ : ℤ),
      groupView k df = f0 :: rest →
      absd = |f0.amtliche_flaeche - reconcilableSum k df| →
      sign = (if 0 ≤ f0.amtliche_flaeche - reconcilableSum k df then 1 else -1) →
      totalZ = ((eligList t (idxRows df k)).map (fun x => x.2.sfl)).sum →
      0 < absd → absd < t →
      (∃ f ∈ groupView k df, f.is_overlap = false ∧ t ≤ f.sfl) →
      ∃ e0 eRest, eligList t (idxRows df k) = e0 :: eRest ∧
        (∀ p ∈ eligList t (idxRows df k), p.2.sfl ≤ e0.2.sfl) ∧
        (∀ p ∈ eRest,
          ((applyDeltaCorrectionNutzung t df).get? p.1).map (·.sfl) =
            some (p.2.sfl + sign * ⌊((absd * p.2.sfl : ℤ) : ℚ) / ((totalZ : ℤ) : ℚ)⌋)) ∧
        ((applyDeltaCorrectionNutzung t df).get? e0.1).map (·.sfl) =
          some (e0.2.sfl + sign * (absd -
            (eRest.map (fun p => ⌊((absd * p.2.sfl : ℤ) : ℚ) / ((totalZ : ℤ) : ℚ)⌋)).sum))) ∧
    (applyDeltaCorrectionNutzung 5 dfA).map (·.sfl) = [498, 399, 250] := by
  constructor
  · intro t df k f0 rest absd sign totalZ hg habsd hsign htotalZ hpos0 hlt0 helig
    obtain ⟨r0, rrest, hr, hr0⟩ := rows_of_groupView hg
    have hSb := rowsSum_eq_reconcilable df k
    rw [hr] at hSb
    have hnonnil := eligList_nonempty helig
    obtain ⟨e0, eRest, he⟩ : ∃ e0 eRest, eligList t (idxRows df k) = e0 :: eRest := by
      rcases hel : eligList t (idxRows df k) with _ | ⟨a, b⟩
      · exact absurd hel hnonnil
      · exact ⟨a, b, rfl⟩
    have hpos : 0 < |f0.amtliche_flaeche - reconcilableSum k df| := habsd ▸ hpos0
    have hlt : |f0.amtliche_flaeche - reconcilableSum k df| < t := habsd ▸ hlt0
    have ht0 : 0 < t := lt_trans hpos hlt
    have htot : 0 < ((eligList t (idxRows df k)).map (fun x => x.2.sfl)).sum :=
      eligTotal_pos ht0 e0 eRest he
    have hne' : reconcilableSum k df ≠ r0.2.amtliche_flaeche := by
      rw [hr0]
      exact (sub_ne_zero.mp (abs_pos.mp hpos)).symm
    have habs' : |r0.2.amtliche_flaeche - reconcilableSum k df| < t := by
      rw [hr0]
      exact hlt
    have hspec := correctAssignments_spec t r0 rrest e0 eRest (reconcilableSum k df)
      (((eligList t (idxRows df k)).map (fun x => x.2.sfl)).sum)
      hSb.symm
      (by rw [← hr]; exact he)
      (by rw [hr])
      hne' habs' htot
    rw [hr0] at hspec
    rw [← hr] at hspec
    have hnodup : ((correctAssignments t (idxRows df k)).map (fun x => x.1)).Nodup := by
      rw [hspec, map_fst_pairmap, List.map_append, map_fst_pairmap]
    -- the remaining part of hnodup after rewriting
      have helnd := eligList_fst_nodup t df k
      rw [he] at helnd
      simp only [List.map_cons] at helnd
      have hperm : List.Perm
          (eRest.map (fun x => x.1) ++ [e0.1]) (e0.1 :: eRest.map (fun x => x.1)) :=
        List.perm_append_singleton e0.1 (eRest.map (fun x => x.1))
      simpa using hperm.nodup_iff.mpr helnd
    have hstep_eq : stepGroup t k df =
        applyAssign df (correctAssignments t (idxRows df k)) := rfl
    refine ⟨e0, eRest, he, ?_, ?_, ?_⟩
    · have hsorted : List.Sorted sflGe (sortRowsDesc (idxRows df k)) :=
        List.sorted_insertionSort sflGe _
      have hsf : List.Sorted sflGe (eligList t (idxRows df k)) :=
        hsorted.filter _
      rw [he] at hsf
      intro p hp
      rw [he] at hp
      rcases List.mem_cons.mp hp with h1 | h1
      · rw [h1]
      · exact (List.sorted_cons.mp hsf).1 p h1
    · intro p hp
      have hpel : p ∈ eligList t (idxRows df k) := by
        rw [he]
        exact List.mem_cons_of_mem e0 hp
      obtain ⟨hrowmem, hov, hsfl⟩ := mem_eligList hpel
      obtain ⟨hget, hfk⟩ := mem_idxRows hrowmem
      have hmem : (p.1,
          (if 0 ≤ f0.amtliche_flaeche - reconcilableSum k df then 1 else -1) *
            pyInt (((|f0.amtliche_flaeche - reconcilableSum k df| : ℤ) : ℚ) *
              ((p.2.sfl : ℚ) /
                ((((eligList t (idxRows df k)).map (fun x => x.2.sfl)).sum : ℤ) : ℚ)))) ∈
          correctAssignments t (idxRows df k) := by
        rw [hspec]
        apply List.mem_map.mpr
        refine ⟨(p.1, pyInt (((|f0.amtliche_flaeche - reconcilableSum k df| : ℤ) : ℚ) *
          ((p.2.sfl : ℚ) /
            ((((eligList t (idxRows df k)).map (fun x => x.2.sfl)).sum : ℤ) : ℚ)))), ?_, rfl⟩
        exact List.mem_append_left _ (List.mem_map.mpr ⟨p, hp, rfl⟩)
      have hval := applyAssign_get?_mem (correctAssignments t (idxRows df k)) df p.1 _
        hnodup hmem
      have hpw := delta_pointwise t df p.1 p.2 hget
      rw [hfk] at hpw
      rw [hpw, hstep_eq, hval, hget]
      simp only [Option.map_some']
      congr 1
      rw [habsd, hsign, htotalZ]
      congr 1
      congr 1
      exact share_eq_floor _ _ _ (abs_nonneg _) (le_trans ht0.le hsfl) htot
    · have he0el : e0 ∈ eligList t (idxRows df k) := by
        rw [he]
        exact List.mem_cons_self e0 eRest
      obtain ⟨hrowmem, hov, hsfl⟩ := mem_eligList he0el
      obtain ⟨hget, hfk⟩ := mem_idxRows hrowmem
      have hmem : (e0.1,
          (if 0 ≤ f0.amtliche_flaeche - reconcilableSum k df then 1 else -1) *
            (|f0.amtliche_flaeche - reconcilableSum k df| -
              ((eRest.map (fun p => (p.1,
                pyInt (((|f0.amtliche_flaeche - reconcilableSum k df| : ℤ) : ℚ) *
                  ((p.2.sfl : ℚ) /
                    ((((eligList t (idxRows df k)).map (fun x => x.2.sfl)).sum : ℤ) : ℚ)))))).map
                (fun x => x.2)).sum)) ∈
          correctAssignments t (idxRows df k) := by
        rw [hspec]
        apply List.mem_map.mpr
        refine ⟨(e0.1, |f0.amtliche_flaeche - reconcilableSum k df| -
          ((eRest.map (fun p => (p.1,
            pyInt (((|f0.amtliche_flaeche - reconcilableSum k df| : ℤ) : ℚ) *
              ((p.2.sfl : ℚ) /
                ((((eligList t (idxRows df k)).map (fun x => x.2.sfl)).sum : ℤ) : ℚ)))))).map
            (fun x => x.2)).sum), ?_, rfl⟩
        exact List.mem_append_right _ (List.mem_singleton.mpr rfl)
      have hval := applyAssign_get?_mem (correctAssignments t (idxRows df k)) df e0.1 _
        hnodup hmem
      have hpw := delta_pointwise t df e0.1 e0.2 hget
      rw [hfk] at hpw
      rw [hpw, hstep_eq, hval, hget]
      simp only [Option.map_some']
      congr 1
      rw [habsd, hsign, htotalZ]
      congr 1
      congr 1
      rw [map_snd_pairmap]
      congr 1
      apply congrArg List.sum
      apply List.map_congr_left
      intro p hp
      have hpel : p ∈ eligList t (idxRows df k) := by
        rw [he]
        exact List.mem_cons_of_mem e0 hp
      exact share_eq_floor _ _ _ (abs_nonneg _)
        (le_trans ht0.le (mem_eligList hpel).2.2) htot
  · norm_num [applyDeltaCorrectionNutzung, dfA, mkRow, Frag.default, groupKeys, keysAux,
      stepGroup, idxRows, correctAssignments, eligList, sortRowsDesc, applyAssign,
      applyOne, pyInt, List.insertionSort, List.orderedInsert, sflGe, List.enum,
      List.enumFrom]

/-! ### C9 — parent-key confinement of merge and delta correction -/

theorem mem_fskCands {G : Type} {dfMain : List (GFrag G)} {k : ℕ} {p : ℕ × GFrag G}
    (h : p ∈ fskCands dfMain k) : dfMain.get? p.1 = some p.2 ∧ p.2.fsk = k := by
  unfold fskCands at h
  obtain ⟨hmem, hpred⟩ := List.mem_filter.mp h
  have h2 := mem_enumFrom_rows dfMain 0 p (by simpa [List.enum] using hmem)
  exact ⟨by simpa using h2.2, of_decide_eq_true hpred⟩

theorem strat1_mem {G : Type} {api : GeomApi G} {mini : G} :
    ∀ {cs : List (ℕ × GFrag G)} {i : ℕ}, strat1 api mini cs = some i →
      ∃ c ∈ cs, c.1 = i := by
  intro cs
  induction cs with
  | nil => intro i h; simp [strat1] at h
  | cons c rest ih =>
    intro i h
    rw [strat1] at h
    by_cases hc : api.touches c.2.geom mini || api.intersects c.2.geom mini
    · rw [if_pos hc] at h
      exact ⟨c, List.mem_cons_self c rest, Option.some_inj.mp h⟩
    · rw [if_neg hc] at h
      obtain ⟨c2, hc2, hc2i⟩ := ih h
      exact ⟨c2, List.mem_cons_of_mem c hc2, hc2i⟩

theorem strat2Aux_mem {G : Type} {api : GeomApi G} {tol : ℚ} {mini : G} :
    ∀ (cs : List (ℕ × GFrag G)) (acc : Option (ℕ × ℚ)) (b : ℕ × ℚ),
      strat2Aux api tol mini cs acc = some b →
      (∃ c ∈ cs, c.1 = b.1) ∨ acc = some b := by
  intro cs
  induction cs with
  | nil =>
    intro acc b h
    simp only [strat2Aux] at h
    exact Or.inr h
  | cons c rest ih =>
    intro acc b h
    simp only [strat2Aux] at h
    rcases ih _ _ h with h1 | h1
    · obtain ⟨c2, hc2, hc2i⟩ := h1
      exact Or.inl ⟨c2, List.mem_cons_of_mem c hc2, hc2i⟩
    · cases acc with
      | none =>
        simp only [] at h1
        by_cases hd : api.distance c.2.geom mini < tol
        · rw [if_pos hd] at h1
          exact Or.inl ⟨c, List.mem_cons_self c rest,
            congrArg Prod.fst (Option.some_inj.mp h1)⟩
        · rw [if_neg hd] at h1
          cases h1
      | some a =>
        simp only [] at h1
        by_cases hd : api.distance c.2.geom mini < tol ∧ api.distance c.2.geom mini < a.2
        · rw [if_pos hd] at h1
          exact Or.inl ⟨c, List.mem_cons_self c rest,
            congrArg Prod.fst (Option.some_inj.mp h1)⟩
        · rw [if_neg hd] at h1
          exact Or.inr h1

theorem strat3Aux_mem {G : Type} {api : GeomApi G} {buf : G} :
    ∀ (cs : List (ℕ × GFrag G)) (acc : Option (ℕ × ℚ)) (b : ℕ × ℚ),
      strat3Aux api buf cs acc = some b →
      (∃ c ∈ cs, c.1 = b.1) ∨ acc = some b := by
  intro cs
  induction cs with
  | nil =>
    intro acc b h
    simp only [strat3Aux] at h
    exact Or.inr h
  | cons c rest ih =>
    intro acc b h
    simp only [strat3Aux] at h
    rcases ih _ _ h with h1 | h1
    · obtain ⟨c2, hc2, hc2i⟩ := h1
      exact Or.inl ⟨c2, List.mem_cons_of_mem c hc2, hc2i⟩
    · by_cases hint : api.intersects buf c.2.geom
      · rw [if_pos hint] at h1
        cases acc with
        | none =>
          simp only [] at h1
          by_cases ha : 0 < api.area c.2.geom
          · rw [if_pos ha] at h1
            exact Or.inl ⟨c, List.mem_cons_self c rest,
              congrArg Prod.fst (Option.some_inj.mp h1)⟩
          · rw [if_neg ha] at h1
            cases h1
        | some a =>
          simp only [] at h1
          by_cases ha : a.2 < api.area c.2.geom
          · rw [if_pos ha] at h1
            exact Or.inl ⟨c, List.mem_cons_self c rest,
              congrArg Prod.fst (Option.some_inj.mp h1)⟩
          · rw [if_neg ha] at h1
            exact Or.inr h1
      · rw [if_neg hint] at h1
        exact Or.inr h1

theorem selectTargetNutzung_mem {G : Type} {api : GeomApi G} {mini : G}
    {cs : List (ℕ × GFrag G)} {i : ℕ}
    (h : selectTargetNutzung api mini cs = some i) : ∃ c ∈ cs, c.1 = i := by
  unfold selectTargetNutzung at h
  cases h1 : strat1 api mini cs with
  | some j =>
    rw [h1] at h
    exact (Option.some_inj.mp h) ▸ strat1_mem h1
  | none =>
    rw [h1] at h
    cases h2 : strat2 api (1/10) mini cs with
    | some j =>
      rw [h2] at h
      unfold strat2 at h2
      obtain ⟨b, hb, hbi⟩ := Option.map_eq_some'.mp h2
      rcases strat2Aux_mem cs none b hb with h3 | h3
      · obtain ⟨c, hc, hci⟩ := h3
        exact ⟨c, hc, by rw [hci, hbi, Option.some_inj.mp h]⟩
      · cases h3
    | none =>
      rw [h2] at h
      unfold strat3 at h
      obtain ⟨b, hb, hbi⟩ := Option.map_eq_some'.mp h
      rcases strat3Aux_mem cs none b hb with h3 | h3
      · obtain ⟨c, hc, hci⟩ := h3
        exact ⟨c, hc, by rw [hci, hbi]⟩
      · cases h3

/-- C9 (confirmed): (1) the delta correction reads and writes only fragments
of the parent group being processed — the pipeline's effect on any group
equals that group's own step applied to the untouched input; (2) a merge
iteration never modifies a main row whose parent key differs from the mini
fragment's (in the nutzung merger and in both `process_merging` modes);
(3) any merge target chosen comes from the mini fragment's own parent
group. -/
theorem claim_C9 :
    (∀ (t : ℤ) (df : List Frag) (k : ℕ),
      groupView k (applyDeltaCorrectionNutzung t df) =
        groupView k (stepGroup t k df)) ∧
    (∀ (G : Type) (api : GeomApi G) (dfMain : List (GFrag G)) (mini : GFrag G)
      (j : ℕ) (g : GFrag G), dfMain.get? j = some g → g.fsk ≠ mini.fsk →
      (mergeOneMiniNutzung api dfMain mini).get? j = some g ∧
      (processMergingOne api true dfMain mini).get? j = some g ∧
      (processMergingOne api false dfMain mini).get? j = some g) ∧
    (∀ (G : Type) (api : GeomApi G) (dfMain : List (GFrag G)) (mini : GFrag G)
      (i : ℕ), selectTargetNutzung api mini.geom (fskCands dfMain mini.fsk) = some i →
      ∃ g, dfMain.get? i = some g ∧ g.fsk = mini.fsk) := by
  have htarget : ∀ (G : Type) (api : GeomApi G) (dfMain : List (GFrag G))
      (mini : GFrag G) (i : ℕ),
      selectTargetNutzung api mini.geom (fskCands dfMain mini.fsk) = some i →
      ∃ g, dfMain.get? i = some g ∧ g.fsk = mini.fsk := by
    intro G api dfMain mini i hsel
    obtain ⟨c, hc, hci⟩ := selectTargetNutzung_mem hsel
    obtain ⟨hgi, hgf⟩ := mem_fskCands hc
    exact ⟨c.2, hci ▸ hgi, hgf⟩
  refine ⟨delta_groupView, ?_, htarget⟩
  intro G api dfMain mini j g hj hne
  refine ⟨?_, ?_, ?_⟩
  · unfold mergeOneMiniNutzung
    cases hsel : selectTargetNutzung api mini.geom (fskCands dfMain mini.fsk) with
    | none => exact hj
    | some i =>
      obtain ⟨g2, hg2, hg2f⟩ := htarget G api dfMain mini i hsel
      have hji : i ≠ j := by
        intro hji
        rw [hji, hj] at hg2
        exact hne ((Option.some_inj.mp hg2) ▸ hg2f)
      show (match dfMain.get? i with
        | none => dfMain
        | some f => dfMain.set i (mergeRecalc api f mini.geom)).get? j = some g
      cases hdi : dfMain.get? i with
      | none => exact hj
      | some f =>
        rw [List.get?_set_ne _ _ hji]
        exact hj
  · unfold processMergingOne
    cases hsel : strat1 api mini.geom (fskCands dfMain mini.fsk) with
    | none => exact hj
    | some i =>
      obtain ⟨c, hc, hci⟩ := strat1_mem hsel
      obtain ⟨hgi, hgf⟩ := mem_fskCands hc
      have hji : i ≠ j := by
        intro hji
        rw [hci, hji, hj] at hgi
        exact hne ((Option.some_inj.mp hgi) ▸ hgf)
      show (match dfMain.get? i with
        | none => dfMain
        | some f => dfMain.set i
            (if true = true then mergeRecalcBoden api f mini.geom
             else mergeRecalc api f mini.geom)).get? j = some g
      cases hdi : dfMain.get? i with
      | none => exact hj
      | some f =>
        rw [List.get?_set_ne _ _ hji]
        exact hj
  · unfold processMergingOne
    cases hsel : strat1 api mini.geom (fskCands dfMain mini.fsk) with
    | none => exact hj
    | some i =>
      obtain ⟨c, hc, hci⟩ := strat1_mem hsel
      obtain ⟨hgi, hgf⟩ := mem_fskCands hc
      have hji : i ≠ j := by
        intro hji
        rw [hci, hji, hj] at hgi
        exact hne ((Option.some_inj.mp hgi) ▸ hgf)
      show (match dfMain.get? i with
        | none => dfMain
        | some f => dfMain.set i
            (if false = true then mergeRecalcBoden api f mini.geom
             else mergeRecalc api f mini.geom)).get? j = some g
      cases hdi : dfMain.get? i with
      | none => exact hj
      | some f =>
        rw [List.get?_set_ne _ _ hji]
        exact hj

/-! ### C7 — fallback order of the merge-target strategies -/

theorem strat1_none {G : Type} {api : GeomApi G} {mini : G} :
    ∀ {cs : List (ℕ × GFrag G)},
      (∀ c ∈ cs, (api.touches c.2.geom mini || api.intersects c.2.geom mini) = false) →
      strat1 api mini cs = none := by
  intro cs
  induction cs with
  | nil => intro _; rfl
  | cons c rest ih =>
    intro h
    rw [strat1, if_neg (by rw [h c (List.mem_cons_self c rest)]; exact fun hc => nomatch hc)]
    exact ih (fun c2 hc2 => h c2 (List.mem_cons_of_mem c hc2))

theorem strat1_of_find? {G : Type} {api : GeomApi G} {mini : G} :
    ∀ {cs : List (ℕ × GFrag G)} {c : ℕ × GFrag G},
      cs.find? (fun c => api.touches c.2.geom mini || api.intersects c.2.geom mini) =
        some c →
      strat1 api mini cs = some c.1 := by
  intro cs
  induction cs with
  | nil => intro c h; simp at h
  | cons a rest ih =>
    intro c h
    by_cases hp : (api.touches a.2.geom mini || api.intersects a.2.geom mini) = true
    · simp only [List.find?] at h
      rw [hp] at h
      rw [strat1, if_pos hp, Option.some_inj.mp (show some a = some c from h)]
    · have hf : (api.touches a.2.geom mini || api.intersects a.2.geom mini) = false := by
        simpa using hp
      simp only [List.find?] at h
      rw [hf] at h
      rw [strat1, if_neg hp]
      exact ih h

theorem strat2Aux_none {G : Type} {api : GeomApi G} {tol : ℚ} {mini : G} :
    ∀ (cs : List (ℕ × GFrag G)) (acc : Option (ℕ × ℚ)),
      strat2Aux api tol mini cs acc = none →
      acc = none ∧ ∀ c ∈ cs, ¬(api.distance c.2.geom mini < tol) := by
  intro cs
  induction cs with
  | nil =>
    intro acc h
    rw [strat2Aux] at h
    exact ⟨h, by intro c hc; simp at hc⟩
  | cons c rest ih =>
    intro acc h
    simp only [strat2Aux] at h
    obtain ⟨hacc2, hrest⟩ := ih _ h
    cases acc with
    | none =>
      simp only [] at hacc2
      by_cases hd : api.distance c.2.geom mini < tol
      · rw [if_pos hd] at hacc2
        cases hacc2
      · refine ⟨rfl, ?_⟩
        intro c2 hc2
        rcases List.mem_cons.mp hc2 with h2 | h2
        · rw [h2]
          exact hd
        · exact hrest c2 h2
    | some a0 =>
      simp only [] at hacc2
      by_cases hd : api.distance c.2.geom mini < tol ∧
          api.distance c.2.geom mini < a0.2
      · rw [if_pos hd] at hacc2
        cases hacc2
      · rw [if_neg hd] at hacc2
        cases hacc2

theorem strat2Aux_none_intro {G : Type} {api : GeomApi G} {tol : ℚ} {mini : G} :
    ∀ (cs : List (ℕ × GFrag G)),
      (∀ c ∈ cs, ¬(api.distance c.2.geom mini < tol)) →
      strat2Aux api tol mini cs none = none := by
  intro cs
  induction cs with
  | nil => intro _; rfl
  | cons c rest ih =>
    intro h
    simp only [strat2Aux]
    rw [if_neg (h c (List.mem_cons_self c rest))]
    exact ih (fun c2 hc2 => h c2 (List.mem_cons_of_mem c hc2))

theorem strat2Aux_some_spec {G : Type} {api : GeomApi G} {tol : ℚ} {mini : G} :
    ∀ (cs : List (ℕ × GFrag G)) (acc : Option (ℕ × ℚ)) (b : ℕ × ℚ),
      strat2Aux api tol mini cs acc = some b →
      (∀ a, acc = some a → b.2 ≤ a.2) ∧
      (∀ c ∈ cs, api.distance c.2.geom mini < tol →
        b.2 ≤ api.distance c.2.geom mini) ∧
      ((∃ c ∈ cs, b.1 = c.1 ∧ b.2 = api.distance c.2.geom mini ∧ b.2 < tol) ∨
        acc = some b) := by
  intro cs
  induction cs with
  | nil =>
    intro acc b h
    rw [strat2Aux] at h
    refine ⟨?_, by intro c hc; simp at hc, Or.inr h⟩
    intro a ha
    rw [ha] at h
    rw [Option.some_inj.mp h]
  | cons c rest ih =>
    intro acc b h
    simp only [strat2Aux] at h
    obtain ⟨ihA, ihB, ihC⟩ := ih _ b h
    cases acc with
    | none =>
      simp only [] at ihA ihC
      by_cases hd : api.distance c.2.geom mini < tol
      · have hAd := ihA (c.1, api.distance c.2.geom mini) (by rw [if_pos hd])
        refine ⟨(fun a ha => nomatch ha), ?_, ?_⟩
        · intro c2 hc2 hd2
          rcases List.mem_cons.mp hc2 with h2 | h2
          · rw [h2]
            exact hAd
          · exact ihB c2 h2 hd2
        · rcases ihC with h3 | h3
          · obtain ⟨c2, hc2, h4⟩ := h3
            exact Or.inl ⟨c2, List.mem_cons_of_mem c hc2, h4⟩
          · rw [if_pos hd] at h3
            have hb := (Option.some_inj.mp h3).symm
            exact Or.inl ⟨c, List.mem_cons_self c rest,
              congrArg Prod.fst hb, congrArg Prod.snd hb,
              by rw [congrArg Prod.snd hb]; exact hd⟩
      · refine ⟨(fun a ha => nomatch ha), ?_, ?_⟩
        · intro c2 hc2 hd2
          rcases List.mem_cons.mp hc2 with h2 | h2
          · rw [h2] at hd2
            exact absurd hd2 hd
          · exact ihB c2 h2 hd2
        · rcases ihC with h3 | h3
          · obtain ⟨c2, hc2, h4⟩ := h3
            exact Or.inl ⟨c2, List.mem_cons_of_mem c hc2, h4⟩
          · rw [if_neg hd] at h3
            cases h3
    | some a0 =>
      simp only [] at ihA ihC
      by_cases hd : api.distance c.2.geom mini < tol ∧ api.distance c.2.geom mini < a0.2
      · have hAd := ihA (c.1, api.distance c.2.geom mini) (by rw [if_pos hd])
        refine ⟨?_, ?_, ?_⟩
        · intro a ha
          rw [Option.some_inj.mp ha] at hd
          exact le_of_lt (lt_of_le_of_lt hAd hd.2)
        · intro c2 hc2 hd2
          rcases List.mem_cons.mp hc2 with h2 | h2
          · rw [h2]
            exact hAd
          · exact ihB c2 h2 hd2
        · rcases ihC with h3 | h3
          · obtain ⟨c2, hc2, h4⟩ := h3
            exact Or.inl ⟨c2, List.mem_cons_of_mem c hc2, h4⟩
          · rw [if_pos hd] at h3
            have hb := (Option.some_inj.mp h3).symm
            exact Or.inl ⟨c, List.mem_cons_self c rest,
              congrArg Prod.fst hb, congrArg Prod.snd hb,
              by rw [congrArg Prod.snd hb]; exact hd.1⟩
      · have hAa := ihA a0 (by rw [if_neg hd])
        refine ⟨?_, ?_, ?_⟩
        · intro a ha
          cases Option.some_inj.mp ha
          exact hAa
        · intro c2 hc2 hd2
          rcases List.mem_cons.mp hc2 with h2 | h2
          · rw [h2] at hd2 ⊢
            have hna : ¬(api.distance c.2.geom mini < a0.2) := fun hlt =>
              hd ⟨hd2, hlt⟩
            push_neg at hna
            exact le_trans hAa hna
          · exact ihB c2 h2 hd2
        · rcases ihC with h3 | h3
          · obtain ⟨c2, hc2, h4⟩ := h3
            exact Or.inl ⟨c2, List.mem_cons_of_mem c hc2, h4⟩
          · rw [if_neg hd] at h3
            exact Or.inr h3

theorem strat3Aux_some_spec {G : Type} {api : GeomApi G} {buf : G} :
    ∀ (cs : List (ℕ × GFrag G)) (acc : Option (ℕ × ℚ)) (b : ℕ × ℚ),
      (∀ a, acc = some a → 0 < a.2) →
      strat3Aux api buf cs acc = some b →
      0 < b.2 ∧
      (∀ a, acc = some a → a.2 ≤ b.2) ∧
      (∀ c ∈ cs, api.intersects buf c.2.geom = true →
        api.area c.2.geom ≤ b.2) ∧
      ((∃ c ∈ cs, b.1 = c.1 ∧ b.2 = api.area c.2.geom ∧
        api.intersects buf c.2.geom = true) ∨ acc = some b) := by
  intro cs
  induction cs with
  | nil =>
    intro acc b hacc h
    rw [strat3Aux] at h
    refine ⟨hacc b h, ?_, by intro c hc; simp at hc, Or.inr h⟩
    intro a ha
    rw [ha] at h
    rw [Option.some_inj.mp h]
  | cons c rest ih =>
    intro acc b hacc h
    simp only [strat3Aux] at h
    by_cases hint : api.intersects buf c.2.geom = true
    · rw [if_pos hint] at h
      cases acc with
      | none =>
        simp only [] at h
        by_cases ha : 0 < api.area c.2.geom
        · rw [if_pos ha] at h
          obtain ⟨ih0, ihA, ihB, ihC⟩ := ih _ b
            (by intro a h2; cases Option.some_inj.mp h2; exact ha) h
          have hAd := ihA (c.1, api.area c.2.geom) rfl
          refine ⟨ih0, (fun a h2 => nomatch h2), ?_, ?_⟩
          · intro c2 hc2 hint2
            rcases List.mem_cons.mp hc2 with h2 | h2
            · rw [h2]
              exact hAd
            · exact ihB c2 h2 hint2
          · rcases ihC with h3 | h3
            · obtain ⟨c2, hc2, h4⟩ := h3
              exact Or.inl ⟨c2, List.mem_cons_of_mem c hc2, h4⟩
            · have hb := (Option.some_inj.mp h3).symm
              exact Or.inl ⟨c, List.mem_cons_self c rest,
                congrArg Prod.fst hb, congrArg Prod.snd hb, hint⟩
        · rw [if_neg ha] at h
          obtain ⟨ih0, ihA, ihB, ihC⟩ := ih _ b (by intro a h2; cases h2) h
          refine ⟨ih0, (fun a h2 => nomatch h2), ?_, ?_⟩
          · intro c2 hc2 hint2
            rcases List.mem_cons.mp hc2 with h2 | h2
            · rw [h2]
              push_neg at ha
              exact le_trans ha ih0.le
            · exact ihB c2 h2 hint2
          · rcases ihC with h3 | h3
            · obtain ⟨c2, hc2, h4⟩ := h3
              exact Or.inl ⟨c2, List.mem_cons_of_mem c hc2, h4⟩
            · cases h3
      | some a0 =>
        simp only [] at h
        have ha0 : 0 < a0.2 := hacc a0 rfl
        by_cases ha : a0.2 < api.area c.2.geom
        · rw [if_pos ha] at h
          obtain ⟨ih0, ihA, ihB, ihC⟩ := ih _ b
            (by intro a h2; cases Option.some_inj.mp h2; exact lt_trans ha0 ha) h
          have hAd := ihA (c.1, api.area c.2.geom) rfl
          refine ⟨ih0, ?_, ?_, ?_⟩
          · intro a h2
            cases Option.some_inj.mp h2
            exact le_trans ha.le hAd
          · intro c2 hc2 hint2
            rcases List.mem_cons.mp hc2 with h2 | h2
            · rw [h2]
              exact hAd
            · exact ihB c2 h2 hint2
          · rcases ihC with h3 | h3
            · obtain ⟨c2, hc2, h4⟩ := h3
              exact Or.inl ⟨c2, List.mem_cons_of_mem c hc2, h4⟩
            · have hb := (Option.some_inj.mp h3).symm
              exact Or.inl ⟨c, List.mem_cons_self c rest,
                congrArg Prod.fst hb, congrArg Prod.snd hb, hint⟩
        · rw [if_neg ha] at h
          obtain ⟨ih0, ihA, ihB, ihC⟩ := ih _ b
            (by intro a h2; cases Option.some_inj.mp h2; exact ha0) h
          have hAa := ihA a0 rfl
          refine ⟨ih0, ?_, ?_, ?_⟩
          · intro a h2
            cases Option.some_inj.mp h2
            exact hAa
          · intro c2 hc2 hint2
            rcases List.mem_cons.mp hc2 with h2 | h2
            · rw [h2]
              push_neg at ha
              exact le_trans ha hAa
            · exact ihB c2 h2 hint2
          · rcases ihC with h3 | h3
            · obtain ⟨c2, hc2, h4⟩ := h3
              exact Or.inl ⟨c2, List.mem_cons_of_mem c hc2, h4⟩
            · exact Or.inr h3
    · rw [if_neg hint] at h
      obtain ⟨ih0, ihA, ihB, ihC⟩ := ih _ b hacc h
      refine ⟨ih0, ihA, ?_, ?_⟩
      · intro c2 hc2 hint2
        rcases List.mem_cons.mp hc2 with h2 | h2
        · rw [h2] at hint2
          exact absurd hint2 hint
        · exact ihB c2 h2 hint2
      · rcases ihC with h3 | h3
        · obtain ⟨c2, hc2, h4⟩ := h3
          exact Or.inl ⟨c2, List.mem_cons_of_mem c hc2, h4⟩
        · exact Or.inr h3

theorem strat3Aux_none {G : Type} {api : GeomApi G} {buf : G} :
    ∀ (cs : List (ℕ × GFrag G)) (acc : Option (ℕ × ℚ)),
      strat3Aux api buf cs acc = none →
      acc = none ∧
      ∀ c ∈ cs, ¬(api.intersects buf c.2.geom = true ∧ 0 < api.area c.2.geom) := by
  intro cs
  induction cs with
  | nil =>
    intro acc h
    rw [strat3Aux] at h
    exact ⟨h, by intro c hc; simp at hc⟩
  | cons c rest ih =>
    intro acc h
    simp only [strat3Aux] at h
    obtain ⟨hacc2, hrest⟩ := ih _ h
    by_cases hint : api.intersects buf c.2.geom = true
    · rw [if_pos hint] at hacc2
      cases acc with
      | none =>
        simp only [] at hacc2
        by_cases ha : 0 < api.area c.2.geom
        · rw [if_pos ha] at hacc2
          cases hacc2
        · refine ⟨rfl, ?_⟩
          intro c2 hc2
          rcases List.mem_cons.mp hc2 with h2 | h2
          · rw [h2]
            exact fun hc => ha hc.2
          · exact hrest c2 h2
      | some a0 =>
        simp only [] at hacc2
        by_cases ha : a0.2 < api.area c.2.geom
        · rw [if_pos ha] at hacc2
          cases hacc2
        · rw [if_neg ha] at hacc2
          cases hacc2
    · rw [if_neg hint] at hacc2
      refine ⟨hacc2, ?_⟩
      intro c2 hc2
      rcases List.mem_cons.mp hc2 with h2 | h2
      · rw [h2]
        exact fun hc => hint hc.1
      · exact hrest c2 h2

theorem selectTargetNutzung_eq1 {G : Type} {api : GeomApi G} {mini : G}
    {cands : List (ℕ × GFrag G)} {i : ℕ}
    (h1 : strat1 api mini cands = some i) :
    selectTargetNutzung api mini cands = some i := by
  unfold selectTargetNutzung
  rw [h1]

theorem selectTargetNutzung_eq2 {G : Type} {api : GeomApi G} {mini : G}
    {cands : List (ℕ × GFrag G)} {b : ℕ × ℚ}
    (h1 : strat1 api mini cands = none)
    (h2 : strat2Aux api (1/10) mini cands none = some b) :
    selectTargetNutzung api mini cands = some b.1 := by
  unfold selectTargetNutzung strat2
  rw [h1, h2]
  rfl

theorem selectTargetNutzung_eq3 {G : Type} {api : GeomApi G} {mini : G}
    {cands : List (ℕ × GFrag G)}
    (h1 : strat1 api mini cands = none)
    (h2 : strat2Aux api (1/10) mini cands none = none) :
    selectTargetNutzung api mini cands = strat3 api mini cands := by
  unfold selectTargetNutzung strat2
  rw [h1, h2]
  rfl

/-- C7 (amended): the merge-target selection of
`_merge_mini_into_main_nutzung` follows the claimed fallback order, with
one divergence from the spec's wording: strategy 3 buffers the mini
fragment by the hard-coded literal `0.5`, not by the `0.1` distance
tolerance.  (1) If some candidate touches or intersects the mini fragment,
the first such candidate is chosen.  (2) Else, if some candidate lies at
distance below the tolerance `0.1`, a candidate at minimum distance among
all candidates is chosen, and its distance is below the tolerance.
(3) Else, if some candidate intersects the mini fragment buffered by `0.5`
with positive area, a candidate of maximum area among the
buffer-intersecting candidates is chosen. -/
theorem claim_C7_amended :
    (∀ (G : Type) (api : GeomApi G) (mini : G) (cands : List (ℕ × GFrag G))
      (c : ℕ × GFrag G),
      cands.find?
        (fun c => api.touches c.2.geom mini || api.intersects c.2.geom mini) =
        some c →
      selectTargetNutzung api mini cands = some c.1) ∧
    (∀ (G : Type) (api : GeomApi G) (mini : G) (cands : List (ℕ × GFrag G)),
      (∀ c ∈ cands,
        (api.touches c.2.geom mini || api.intersects c.2.geom mini) = false) →
      (∃ c ∈ cands, api.distance c.2.geom mini < 1/10) →
      ∃ c ∈ cands, selectTargetNutzung api mini cands = some c.1 ∧
        api.distance c.2.geom mini < 1/10 ∧
        ∀ b ∈ cands, api.distance c.2.geom mini ≤ api.distance b.2.geom mini) ∧
    (∀ (G : Type) (api : GeomApi G) (mini : G) (cands : List (ℕ × GFrag G)),
      (∀ c ∈ cands,
        (api.touches c.2.geom mini || api.intersects c.2.geom mini) = false) →
      (∀ c ∈ cands, ¬(api.distance c.2.geom mini < 1/10)) →
      (∃ c ∈ cands, api.intersects (api.buffer mini (1/2)) c.2.geom = true ∧
        0 < api.area c.2.geom) →
      ∃ c ∈ cands, selectTargetNutzung api mini cands = some c.1 ∧
        api.intersects (api.buffer mini (1/2)) c.2.geom = true ∧
        ∀ b ∈ cands, api.intersects (api.buffer mini (1/2)) b.2.geom = true →
          api.area b.2.geom ≤ api.area c.2.geom) := by
  refine ⟨?_, ?_, ?_⟩
  · intro G api mini cands c h
    exact selectTargetNutzung_eq1 (strat1_of_find? h)
  · intro G api mini cands hno hex
    have h1 : strat1 api mini cands = none := strat1_none hno
    cases h2 : strat2Aux api (1/10) mini cands none with
    | none =>
      obtain ⟨c, hc, hcd⟩ := hex
      exact absurd hcd ((strat2Aux_none cands none h2).2 c hc)
    | some b =>
      obtain ⟨ihA, ihB, ihC⟩ := strat2Aux_some_spec cands none b h2
      rcases ihC with ⟨c, hc, hb1, hb2, hb3⟩ | h3
      · refine ⟨c, hc, ?_, ?_, ?_⟩
        · rw [selectTargetNutzung_eq2 h1 h2, hb1]
        · rw [← hb2]
          exact hb3
        · intro b2 hb2m
          by_cases hdb : api.distance b2.2.geom mini < 1/10
          · rw [← hb2]
            exact ihB b2 hb2m hdb
          · push_neg at hdb
            rw [← hb2]
            exact le_trans (le_of_lt hb3) hdb
      · cases h3
  · intro G api mini cands hno hfar hex
    have h1 : strat1 api mini cands = none := strat1_none hno
    have h2 : strat2Aux api (1/10) mini cands none = none :=
      strat2Aux_none_intro cands hfar
    have hsel := selectTargetNutzung_eq3 h1 h2
    cases h3 : strat3Aux api (api.buffer mini (1/2)) cands none with
    | none =>
      obtain ⟨c, hc, hci, hca⟩ := hex
      exact absurd ⟨hci, hca⟩ ((strat3Aux_none cands none h3).2 c hc)
    | some b =>
      obtain ⟨ih0, ihA, ihB, ihC⟩ :=
        strat3Aux_some_spec cands none b (fun a ha => nomatch ha) h3
      rcases ihC with ⟨c, hc, hb1, hb2, hb3⟩ | h4
      · refine ⟨c, hc, ?_, hb3, ?_⟩
        · rw [hsel]
          unfold strat3
          rw [h3]
          show some b.1 = some c.1
          rw [hb1]
        · intro b2 hb2m hb2i
          rw [← hb2]
          exact ihB b2 hb2m hb2i
      · cases h4

/-- C7 (counterexample to the spec's buffer wording): a mini interval
`[0, 0.1]` with one candidate `[0.4, 1.4]` at gap `0.3`: no touch or
intersection, distance not below the `0.1` tolerance; the code's `0.5`
buffer reaches the candidate and merges, while a buffer by the tolerance
`0.1` — the spec's wording — would find no target at all. -/
theorem claim_C7_counterexample :
    selectTargetNutzung ivApi miniIv [(0, mainIvRow)] = some 0 ∧
      selectTargetSpecWords ivApi miniIv [(0, mainIvRow)] = none := by
  constructor
  · norm_num [selectTargetNutzung, strat1, strat2, strat2Aux, strat3,
      strat3Aux, ivApi, miniIv, mainIvRow, max_def, min_def]
  · norm_num [selectTargetSpecWords, strat1, strat2, strat2Aux, strat3Aux,
      ivApi, miniIv, mainIvRow, max_def, min_def]

end AlkisSfl
